import Mathlib

/-!
# libtorrent `bitfield` (src/bitfield.cpp)

A shallow embedding of `bitfield::all_set`, `bitfield::count`, the two `bitfield::resize`
overloads, `bitfield::find_first_set` and `bitfield::find_last_clear`.

Conventions of the embedding:

* a `boost::uint32_t` is a natural number below `2 ^ 32`; every operation of the source that can
  leave that range is followed by an explicit `% 2 ^ 32`;
* `int` lengths and indices are unbounded integers (the source asserts `bits >= 0`);
* `aux::mmx_support` (with `TORRENT_HAS_SSE`) is the argument `mmx_support`;
* the byte order of the host is the argument `little_endian`;
* the heap is an argument of `resize`: `none` when `malloc`/`realloc` return `NULL`, and
  `some g` when they succeed, `g i % 2 ^ 32` being the indeterminate content of the `i`-th
  data word of fresh memory;
* exceptions are enabled (`BOOST_NO_EXCEPTIONS` is not defined): a failed allocation throws
  `std::bad_alloc`, the `.error` result of `resize`; `resize_effect` and `resize_val_effect`
  give, for the same calls, the state the object is left in together with the exception;
* a shift of a 32-bit value by 32 is undefined in C++: its value is the argument `wide` of
  `find_last_clear`, the only place of the source where it can occur;
* a result of type `Option` is `none` when the source runs into undefined behaviour
  (a read through the null pointer or outside the block, a bit-scan intrinsic applied to `0`).
-/

namespace libtorrent

/-! ## Loops -/

/-- The loop `for (int i = lo; i < lo + n; ++i) body`, where `body i` is `some r` when the
iteration executes `return r` and `none` when it falls through (or executes `continue`). -/
def for_up {α : Type} (body : Nat → Option α) : Nat → Nat → Option α
  | _, 0 => none
  | i, n + 1 =>
    match body i with
    | some r => some r
    | none => for_up body (i + 1) n

/-- The loop `for (int i = n - 1; i >= 0; --i) body`, with the same reading of `body`. -/
def for_down {α : Type} (body : Nat → Option α) : Nat → Option α
  | 0 => none
  | n + 1 =>
    match body n with
    | some r => some r
    | none => for_down body n

/-- The accumulating loop `for (int i = lo; i < lo + n; ++i) ret += f(i)`. -/
def sum_loop (f : Nat → Nat) : Nat → Nat → Nat → Nat
  | _, 0, ret => ret
  | i, n + 1, ret => sum_loop f (i + 1) n (ret + f i)

/-! ## Words, byte order and intrinsics -/

/-- Reversal of the four bytes of a 32-bit word. -/
def bswap32 (x : Nat) : Nat :=
  (x % 256) * 16777216 + (x / 256 % 256) * 65536 + (x / 65536 % 256) * 256 + x / 16777216 % 256

/-- Modelled from the spec: `aux::host_to_network` (libtorrent/byteswap.hpp is not part of the
sources at hand). Words are stored big-endian; on a little-endian host the conversion reverses
the bytes, on a big-endian host it is the identity. -/
def host_to_network (little_endian : Bool) (x : Nat) : Nat :=
  if little_endian then bswap32 x else x

/-- Modelled from the spec: `aux::network_to_host`, the decoding step at a word read. -/
def network_to_host (little_endian : Bool) (x : Nat) : Nat :=
  if little_endian then bswap32 x else x

/-- The intrinsic `__builtin_popcount` (`_mm_popcnt_u32`): the number of 1-bits of a 32-bit
value. -/
def builtin_popcount (x : Nat) : Nat :=
  ((List.range 32).map (fun j => (x.testBit j).toNat)).sum

/-- The intrinsic `__builtin_clz`: the number of 0-bits above the most significant 1-bit of a
32-bit value; undefined (`none`) at `0`. -/
def builtin_clz (x : Nat) : Option Nat :=
  for_up (fun j => if x.testBit (31 - j) then some j else none) 0 32

/-- The intrinsic `__builtin_ctz`: the number of 0-bits below the least significant 1-bit of a
32-bit value; undefined (`none`) at `0`. -/
def builtin_ctz (x : Nat) : Option Nat :=
  for_up (fun j => if x.testBit j then some j else none) 0 32

/-- The shift `x << s` of a 32-bit unsigned value. The result is truncated to 32 bits when
`s < 32`. A shift by the full width is undefined in C++; `wide` stands for the value the
platform produces in that case (an x86 `shl` masks the count and yields `x`, a shifter that
does not yields `0`). -/
def shl32 (wide : Nat) (x s : Nat) : Nat :=
  if s < 32 then (x <<< s) % 2 ^ 32 else wide % 2 ^ 32

/-- The bit-parallel population count of the portable path of `count()`, lines 80-90, on one
word `v`: `S = {1, 2, 4, 8, 16}` and
`B = {0x55555555, 0x33333333, 0x0F0F0F0F, 0x00FF00FF, 0x0000FFFF}`. -/
def swar (v : Nat) : Nat :=
  let c := (v + 2 ^ 32 - ((v >>> 1) &&& 0x55555555)) % 2 ^ 32
  let c := (((c >>> 2) &&& 0x33333333) + (c &&& 0x33333333)) % 2 ^ 32
  let c := (((c >>> 4) + c) % 2 ^ 32) &&& 0x0F0F0F0F
  let c := (((c >>> 8) + c) % 2 ^ 32) &&& 0x00FF00FF
  let c := (((c >>> 16) + c) % 2 ^ 32) &&& 0x0000FFFF
  c

/-- The table `MultiplyDeBruijnBitPosition` of `find_first_set()`. -/
def MultiplyDeBruijnBitPosition : List Nat :=
  [0, 9, 1, 10, 13, 21, 2, 29, 11, 14, 16, 18, 22, 25, 3, 30,
   8, 12, 20, 28, 15, 17, 24, 7, 19, 27, 23, 6, 26, 5, 4, 31]

/-- The portable bit search of `find_first_set()`, lines 195-201, on the host-order word `v`:
the cascade of ORs followed by the multiply, shift and table lookup. -/
def debruijn_position (v : Nat) : Nat :=
  let v := v ||| (v >>> 1)
  let v := v ||| (v >>> 2)
  let v := v ||| (v >>> 4)
  let v := v ||| (v >>> 8)
  let v := v ||| (v >>> 16)
  MultiplyDeBruijnBitPosition.getD (((v * 0x07C4ACDD) % 2 ^ 32) >>> 27) 0

/-- The portable loop `for (int k = 0; k < 32; ++k, v >>= 1)` of `find_last_clear()`, lines
234-238 and 264-268: an iteration with `(v & 1) == 1` continues, any other one returns
`i * 32 + 31 - k`. -/
def shift_test_loop (i : Int) (v : Nat) : Option Int :=
  for_up (fun k => if ((v >>> k) &&& 1) == 1 then none else some (i * 32 + 31 - (k : Int))) 0 32

/-! ## The data structure -/

/-- The heap block owned by a non-empty bitfield: the word in front of the data (`m_buf[-1]`,
the length in bits) and the data words `m_buf[0]`, `m_buf[1]`, ... -/
structure block where
  bits : Nat
  data : List Nat
  deriving DecidableEq, Repr

/-- The class `bitfield`: its only member is the pointer `m_buf`, `none` being `NULL`. -/
structure bitfield where
  m_buf : Option block
  deriving DecidableEq, Repr

/-- The exception thrown by `resize`. -/
inductive error where
  | bad_alloc
  deriving DecidableEq, Repr

/-- Modelled from the spec: `bitfield::size()` (declared in bitfield.hpp, not part of the
sources at hand): the embedded length word, `0` when there is no allocation. -/
def size (s : bitfield) : Nat :=
  match s.m_buf with
  | none => 0
  | some b => b.bits

/-- Modelled from the spec: `bitfield::num_words()` (bitfield.hpp): `ceil(length / 32)`. -/
def num_words (s : bitfield) : Nat := (size s + 31) / 32

/-- The data words of the bitfield. -/
def words (s : bitfield) : List Nat :=
  match s.m_buf with
  | none => []
  | some b => b.data

/-- The read `m_buf[i]` at an index the surrounding loop keeps inside `[0, num_words())`. -/
def word (s : bitfield) (i : Nat) : Nat := (words s).getD i 0

/-- The read `m_buf[i]` at an index that nothing guards: `none` through the null pointer or
outside the block, the length word at `-1`. -/
def read (s : bitfield) (i : Int) : Option Nat :=
  match s.m_buf with
  | none => none
  | some b => if i = -1 then some b.bits else if 0 ≤ i then b.data.get? i.toNat else none

/-- The assignment `m_buf[i] = v`. -/
def write (s : bitfield) (i : Nat) (v : Nat) : bitfield :=
  match s.m_buf with
  | none => s
  | some b => ⟨some ⟨b.bits, b.data.set i v⟩⟩

/-- The call `std::memset(m_buf + start, byte, n * 4)` with `byte` being `0x00` or `0xff`:
the `n` words from `start` on all become `fill`. -/
def memset (s : bitfield) (start : Nat) (fill : Nat) (n : Nat) : bitfield :=
  match s.m_buf with
  | none => s
  | some b =>
    ⟨some ⟨b.bits, (List.range b.data.length).map
      (fun i => if start ≤ i ∧ i < start + n then fill else b.data.getD i 0)⟩⟩

/-- Modelled from the spec: `bitfield::get_bit(i)` (bitfield.hpp): bit `i` is bit
`31 - i mod 32`, counted from the least significant end, of word `i / 32` after
network-to-host conversion. -/
def get_bit (little_endian : Bool) (s : bitfield) (i : Nat) : Bool :=
  (network_to_host little_endian (word s (i / 32))).testBit (31 - i % 32)

/-- Modelled from the spec: `bitfield::clear_trailing_bits()` (bitfield.hpp): the
trailing-bit-zero pass, which masks the final word when the length is not a multiple of 32. -/
def clear_trailing_bits (little_endian : Bool) (s : bitfield) : bitfield :=
  if (size s &&& 31) != 0 then
    write s (num_words s - 1)
      (word s (num_words s - 1) &&&
        host_to_network little_endian ((0xffffffff <<< (32 - (size s &&& 31))) % 2 ^ 32))
  else s

/-- The state invariant: there is an allocation exactly when the length is positive, there are
`ceil(length / 32)` data words, each a 32-bit value, and every bit of the final word at a
position from the length on is `0`. -/
def valid (little_endian : Bool) (s : bitfield) : Prop :=
  (s.m_buf.isSome = true ↔ 0 < size s) ∧
  (words s).length = num_words s ∧
  (∀ w ∈ words s, w < 2 ^ 32) ∧
  ∀ j, j < 32 * num_words s → size s ≤ j → get_bit little_endian s j = false

instance (little_endian : Bool) (s : bitfield) : Decidable (valid little_endian s) := by
  unfold valid
  infer_instance

/-! ## The operations of bitfield.cpp -/

/-- The function `bitfield::all_set()`, lines 42-56. -/
def all_set (little_endian : Bool) (s : bitfield) : Bool :=
  let words := size s / 32
  match for_up (fun i => if word s i != 0xffffffff then some false else none) 0 words with
  | some r => r
  | none =>
    let rest := size s &&& 31
    if rest > 0 then
      let mask := host_to_network little_endian ((0xffffffff <<< (32 - rest)) % 2 ^ 32)
      if (word s words &&& mask) != mask then false else true
    else true

/-- The function `bitfield::count()`, lines 58-97: the intrinsic loop when `mmx_support`, the
bit-parallel loop otherwise. -/
def count (mmx_support : Bool) (s : bitfield) : Nat :=
  let words := num_words s
  if mmx_support then
    sum_loop (fun i => builtin_popcount (word s i)) 0 words 0
  else
    sum_loop (fun i => swar (word s i)) 0 words 0

/-- The function `bitfield::resize(int bits)`, lines 126-163. -/
def resize (little_endian : Bool) (heap : Option (Nat → Nat)) (bits : Nat) (s : bitfield) :
    Except error bitfield :=
  if bits = size s then .ok s
  else
    let b := (bits + 31) / 32
    if bits = 0 then
      -- `std::free(m_buf-1); m_buf = NULL;` (nothing to free when `m_buf` is already `NULL`)
      .ok ⟨none⟩
    else
      match s.m_buf with
      | some blk =>
        -- `std::realloc(m_buf-1, (b+1) * 4)`: the old words that fit are kept
        match heap with
        | none => .error error.bad_alloc
        | some g =>
          .ok (clear_trailing_bits little_endian
            ⟨some ⟨bits, (List.range b).map
              (fun i => if i < blk.data.length then blk.data.getD i 0 else g i % 2 ^ 32)⟩⟩)
      | none =>
        -- `std::malloc((b+1) * 4)`
        match heap with
        | none => .error error.bad_alloc
        | some g =>
          .ok (clear_trailing_bits little_endian
            ⟨some ⟨bits, (List.range b).map (fun i => g i % 2 ^ 32)⟩⟩)

/-- The function `bitfield::resize(int bits, bool val)`, lines 99-124. -/
def resize_val (little_endian : Bool) (heap : Option (Nat → Nat)) (bits : Nat) (val : Bool)
    (s : bitfield) : Except error bitfield :=
  if bits = size s then .ok s
  else
    let sz := size s
    let b := size s &&& 31
    match resize little_endian heap bits s with
    | .error e => .error e
    | .ok s1 =>
      if sz ≥ size s1 then .ok s1
      else
        let old_size_words := (sz + 31) / 32
        let new_size_words := num_words s1
        if val then
          let s2 :=
            if old_size_words != 0 && b != 0 then
              write s1 (old_size_words - 1)
                (word s1 (old_size_words - 1) ||| host_to_network little_endian (0xffffffff >>> b))
            else s1
          let s3 :=
            if old_size_words < new_size_words then
              memset s2 old_size_words 0xffffffff (new_size_words - old_size_words)
            else s2
          .ok (clear_trailing_bits little_endian s3)
        else
          .ok (if old_size_words < new_size_words then
              memset s1 old_size_words 0 (new_size_words - old_size_words)
            else s1)

/-- The function `bitfield::find_first_set()`, lines 165-204. -/
def find_first_set (mmx_support little_endian : Bool) (s : bitfield) : Option Int :=
  let words := num_words s
  let found := for_up (fun i =>
    if word s i == 0 then none
    else
      let v := network_to_host little_endian (word s i)
      if mmx_support then
        some ((builtin_clz v).map (fun (z : Nat) => (i : Int) * 32 + (z : Int)))
      else
        some (some ((i : Int) * 32 + (debruijn_position v : Int)))) 0 words
  match found with
  | some r => r
  | none => some (-1)

/-- The function `bitfield::find_last_clear()`, lines 206-271. -/
def find_last_clear (mmx_support little_endian : Bool) (wide : Nat) (s : bitfield) :
    Option Int :=
  let words := num_words s
  let mask := shl32 wide 0xffffffff (32 - (size s &&& 31))
  match read s ((words : Int) - 1) with
  | none => none
  | some w =>
    let last := network_to_host little_endian w ^^^ mask
    if last != 0 then
      let i : Int := (words : Int) - 1
      if mmx_support then
        (builtin_ctz last).map (fun (z : Nat) => i * 32 + 31 - (z : Int))
      else
        match shift_test_loop i last with
        | some r => some r
        | none => some (-1)
    else
      let found := for_down (fun i =>
        if word s i == 0xffffffff then none
        else
          let v := network_to_host little_endian (word s i) ^^^ 0xffffffff
          if mmx_support then
            some ((builtin_ctz v).map (fun (z : Nat) => (i : Int) * 32 + 31 - (z : Int)))
          else
            (shift_test_loop (i : Int) v).map some) (words - 1)
      match found with
      | some r => r
      | none => some (-1)

/-! ## Example states -/

/-- The bitfield of `n` bits in which exactly the bits satisfying `p` are set, as stored on a
host of the given byte order. -/
def of_bits (little_endian : Bool) (n : Nat) (p : Nat → Bool) : bitfield :=
  if n = 0 then ⟨none⟩
  else ⟨some ⟨n, (List.range ((n + 31) / 32)).map (fun q =>
    host_to_network little_endian
      (((List.range 32).map (fun r =>
        if 32 * q + r < n ∧ p (32 * q + r) = true then 2 ^ (31 - r) else 0)).sum))⟩⟩

/-! ## The two `resize` overloads as transitions of the object -/

/-- The call `resize(bits)`, lines 126-163, as a transition of the object: the state `m_buf`
is left in when the call ends, and the exception that ends it, if any. A `realloc` that
returns `NULL` leaves the old block as it was, and the `throw` of lines 146 and 156 comes
before the assignment to `m_buf`. -/
def resize_effect (little_endian : Bool) (heap : Option (Nat → Nat)) (bits : Nat)
    (s : bitfield) : bitfield × Option error :=
  if bits = size s then (s, none)
  else
    let b := (bits + 31) / 32
    if bits = 0 then
      match s.m_buf with
      | some _ => (⟨none⟩, none)
      | none => (s, none)
    else
      match s.m_buf with
      | some blk =>
        match heap with
        | none => (s, some error.bad_alloc)
        | some g =>
          (clear_trailing_bits little_endian
            ⟨some ⟨bits, (List.range b).map
              (fun i => if i < blk.data.length then blk.data.getD i 0 else g i % 2 ^ 32)⟩⟩,
            none)
      | none =>
        match heap with
        | none => (s, some error.bad_alloc)
        | some g =>
          (clear_trailing_bits little_endian
            ⟨some ⟨bits, (List.range b).map (fun i => g i % 2 ^ 32)⟩⟩, none)

/-- The call `resize(bits, val)`, lines 99-124, as a transition of the object: an exception
of the inner `resize(bits)` leaves the call at line 105, before any write of lines 111-121. -/
def resize_val_effect (little_endian : Bool) (heap : Option (Nat → Nat)) (bits : Nat)
    (val : Bool) (s : bitfield) : bitfield × Option error :=
  if bits = size s then (s, none)
  else
    let sz := size s
    let b := size s &&& 31
    match resize_effect little_endian heap bits s with
    | (s1, some e) => (s1, some e)
    | (s1, none) =>
      if sz ≥ size s1 then (s1, none)
      else
        let old_size_words := (sz + 31) / 32
        let new_size_words := num_words s1
        if val then
          let s2 :=
            if old_size_words != 0 && b != 0 then
              write s1 (old_size_words - 1)
                (word s1 (old_size_words - 1) ||| host_to_network little_endian (0xffffffff >>> b))
            else s1
          let s3 :=
            if old_size_words < new_size_words then
              memset s2 old_size_words 0xffffffff (new_size_words - old_size_words)
            else s2
          (clear_trailing_bits little_endian s3, none)
        else
          (if old_size_words < new_size_words then
              memset s1 old_size_words 0 (new_size_words - old_size_words)
            else s1, none)

/-! ## Auxiliary definitions for the proofs -/

/-- The number whose digits in base `2 ^ k`, least significant first, are `ds`. -/
def lanes (k : Nat) : List Nat → Nat
  | [] => 0
  | d :: ds => d + 2 ^ k * lanes k ds

/-- The block `resize(bits)` holds after `realloc`/`malloc` succeeded with heap content `g` and
the length word was written, before the trailing-bit pass: the old words that fit are kept, the
other ones hold what the heap held. -/
def reallocated (g : Nat → Nat) (bits : Nat) (s : bitfield) : bitfield :=
  ⟨some ⟨bits, (List.range ((bits + 31) / 32)).map
    (fun i => if i < (words s).length then word s i else g i % 2 ^ 32)⟩⟩

/-- Line 111 of `resize(bits, val)`: the tail of the old final word is set, `n` being the old
length and `t` the block after `resize(bits)`. -/
def old_tail_set (le : Bool) (n : Nat) (t : bitfield) : bitfield :=
  if (n + 31) / 32 != 0 && (n &&& 31) != 0 then
    write t ((n + 31) / 32 - 1)
      (word t ((n + 31) / 32 - 1) ||| host_to_network le (0xffffffff >>> (n &&& 31)))
  else t

/-- Lines 112-114 and 119-121 of `resize(bits, val)`: the words from the old word count `osw`
up to the new one `nsw` are filled. -/
def new_words_filled (osw nsw fill : Nat) (t : bitfield) : bitfield :=
  if osw < nsw then memset t osw fill (nsw - osw) else t

/-! ## States used as concrete instances -/

/-- Forty bits, stored on a little-endian host, of which only bit 35 is set. -/
def only_bit_35 : bitfield := of_bits true 40 (fun i => i == 35)

/-- Forty bits, stored on a little-endian host, all set except bit 35. -/
def all_but_bit_35 : bitfield := of_bits true 40 (fun i => i != 35)

/-- A heap whose fresh memory holds ones everywhere. -/
def heap_of_ones : Nat → Nat := fun _ => 0xffffffff

/-- Thirty-two bits, stored on a little-endian host, all set except bit 5. -/
def all_but_bit_5 : bitfield := of_bits true 32 (fun i => i != 5)

/-- A block of one word of ones under a length of one bit: a state that breaks the
trailing-bit invariant. -/
def ones_under_one_bit : bitfield := ⟨some ⟨1, [0xffffffff]⟩⟩

/-! ## Loop lemmas -/

theorem for_up_none {α : Type} (body : Nat → Option α) :
    ∀ n i, for_up body i n = none ↔ ∀ j, j < n → body (i + j) = none
  | 0, i => by simp [for_up]
  | n + 1, i => by
    unfold for_up
    cases hb : body i with
    | some r =>
      constructor
      · intro h
        exact absurd h (by simp)
      · intro h
        have := h 0 (Nat.succ_pos n)
        simp [hb] at this
    | none =>
      simp only
      rw [for_up_none body n (i + 1)]
      constructor
      · intro h j hj
        cases j with
        | zero => simpa using hb
        | succ j =>
          have := h j (by omega)
          rwa [show i + (j + 1) = i + 1 + j by omega]
      · intro h j hj
        have := h (j + 1) (by omega)
        rwa [show i + (j + 1) = i + 1 + j by omega] at this

theorem for_up_some {α : Type} (body : Nat → Option α) (r : α) :
    ∀ n i, for_up body i n = some r ↔
      ∃ j, j < n ∧ body (i + j) = some r ∧ ∀ k, k < j → body (i + k) = none
  | 0, i => by simp [for_up]
  | n + 1, i => by
    unfold for_up
    cases hb : body i with
    | some r0 =>
      simp only [Option.some.injEq]
      constructor
      · intro h
        exact ⟨0, Nat.succ_pos n, by simp [hb, h], fun k hk => absurd hk (Nat.not_lt_zero k)⟩
      · rintro ⟨j, _, hj, hlt⟩
        cases j with
        | zero => simpa [hb] using hj
        | succ j =>
          have := hlt 0 (Nat.succ_pos j)
          simp [hb] at this
    | none =>
      simp only
      rw [for_up_some body r n (i + 1)]
      constructor
      · rintro ⟨j, hj, hr, hlt⟩
        refine ⟨j + 1, by omega, by rwa [show i + (j + 1) = i + 1 + j by omega], ?_⟩
        intro k hk
        cases k with
        | zero => simpa using hb
        | succ k =>
          have := hlt k (by omega)
          rwa [show i + (k + 1) = i + 1 + k by omega]
      · rintro ⟨j, hj, hr, hlt⟩
        cases j with
        | zero => simp [hb] at hr
        | succ j =>
          refine ⟨j, by omega, by rwa [show i + (j + 1) = i + 1 + j by omega] at hr, ?_⟩
          intro k hk
          have := hlt (k + 1) (by omega)
          rwa [show i + (k + 1) = i + 1 + k by omega] at this

theorem for_down_none {α : Type} (body : Nat → Option α) :
    ∀ n, for_down body n = none ↔ ∀ j, j < n → body j = none
  | 0 => by simp [for_down]
  | n + 1 => by
    unfold for_down
    cases hb : body n with
    | some r =>
      constructor
      · intro h
        exact absurd h (by simp)
      · intro h
        have := h n (Nat.lt_succ_self n)
        simp [hb] at this
    | none =>
      simp only
      rw [for_down_none body n]
      constructor
      · intro h j hj
        rcases Nat.lt_succ_iff_lt_or_eq.mp hj with h1 | h1
        · exact h j h1
        · rw [h1]; exact hb
      · intro h j hj
        exact h j (by omega)

theorem for_down_some {α : Type} (body : Nat → Option α) (r : α) :
    ∀ n, for_down body n = some r ↔
      ∃ j, j < n ∧ body j = some r ∧ ∀ k, j < k → k < n → body k = none
  | 0 => by simp [for_down]
  | n + 1 => by
    unfold for_down
    cases hb : body n with
    | some r0 =>
      simp only [Option.some.injEq]
      constructor
      · intro h
        exact ⟨n, Nat.lt_succ_self n, by rw [hb, h], fun k h1 h2 => by omega⟩
      · rintro ⟨j, hj, hr, hlt⟩
        rcases Nat.lt_succ_iff_lt_or_eq.mp hj with h1 | h1
        · have := hlt n h1 (Nat.lt_succ_self n)
          simp [hb] at this
        · rw [h1, hb] at hr
          exact Option.some.inj hr
    | none =>
      simp only
      rw [for_down_some body r n]
      constructor
      · rintro ⟨j, hj, hr, hlt⟩
        refine ⟨j, by omega, hr, ?_⟩
        intro k h1 h2
        rcases Nat.lt_succ_iff_lt_or_eq.mp h2 with h3 | h3
        · exact hlt k h1 h3
        · rw [h3]; exact hb
      · rintro ⟨j, hj, hr, hlt⟩
        rcases Nat.lt_succ_iff_lt_or_eq.mp hj with h1 | h1
        · exact ⟨j, h1, hr, fun k h2 h3 => hlt k h2 (by omega)⟩
        · rw [h1, hb] at hr
          exact absurd hr (by simp)

theorem sum_loop_eq (f : Nat → Nat) :
    ∀ n i ret, sum_loop f i n ret = ret + ∑ j in Finset.range n, f (i + j)
  | 0, i, ret => by simp [sum_loop]
  | n + 1, i, ret => by
    unfold sum_loop
    rw [sum_loop_eq f n (i + 1) (ret + f i), Finset.sum_range_succ']
    have : ∀ j, f (i + 1 + j) = f (i + (j + 1)) := fun j => by
      rw [show i + 1 + j = i + (j + 1) by omega]
    simp only [this, Nat.add_zero]
    omega

/-! ## Byte order lemmas -/

theorem bswap32_lt (x : Nat) : bswap32 x < 2 ^ 32 := by
  unfold bswap32; omega

theorem bswap32_eq (x : Nat) : bswap32 x =
    2 ^ 8 * (2 ^ 8 * (2 ^ 8 * (x % 2 ^ 8) + (x >>> 8) % 2 ^ 8) + (x >>> 16) % 2 ^ 8)
      + (x >>> 24) % 2 ^ 8 := by
  simp only [bswap32, Nat.shiftRight_eq_div_pow, Nat.reducePow]
  omega

theorem testBit_ge_of_lt {x n j : Nat} (h : x < 2 ^ n) (hj : n ≤ j) : x.testBit j = false :=
  Nat.testBit_lt_two_pow (Nat.lt_of_lt_of_le h (Nat.pow_le_pow_right (by decide) hj))

theorem bswap32_testBit (x j : Nat) (hj : j < 32) :
    (bswap32 x).testBit j = x.testBit (8 * (3 - j / 8) + j % 8) := by
  have h8 : ∀ y : Nat, y % 2 ^ 8 < 2 ^ 8 := fun y => Nat.mod_lt _ (by decide)
  rw [bswap32_eq, Nat.testBit_mul_pow_two_add _ (h8 _), Nat.testBit_mul_pow_two_add _ (h8 _),
    Nat.testBit_mul_pow_two_add _ (h8 _)]
  simp only [Nat.testBit_mod_two_pow, Nat.testBit_shiftRight]
  by_cases h1 : j < 8
  · have e : 8 * (3 - j / 8) + j % 8 = 24 + j := by omega
    simp [h1, e]
  · by_cases h2 : j - 8 < 8
    · have e : 8 * (3 - j / 8) + j % 8 = 16 + (j - 8) := by omega
      simp [h1, h2, e]
    · by_cases h3 : j - 8 - 8 < 8
      · have e : 8 * (3 - j / 8) + j % 8 = 8 + (j - 8 - 8) := by omega
        simp [h1, h2, h3, e]
      · have e : 8 * (3 - j / 8) + j % 8 = j - 8 - 8 - 8 := by omega
        have h4 : j - 8 - 8 - 8 < 8 := by omega
        simp [h1, h2, h3, h4, e]

theorem bswap32_bswap32 (x : Nat) (h : x < 2 ^ 32) : bswap32 (bswap32 x) = x := by
  apply Nat.eq_of_testBit_eq
  intro j
  by_cases hj : j < 32
  · rw [bswap32_testBit _ _ hj, bswap32_testBit _ _ (by omega)]
    congr 1
    omega
  · rw [testBit_ge_of_lt (bswap32_lt _) (by omega), testBit_ge_of_lt h (by omega)]

theorem bswap32_and (x y : Nat) : bswap32 (x &&& y) = bswap32 x &&& bswap32 y := by
  apply Nat.eq_of_testBit_eq
  intro j
  by_cases hj : j < 32
  · simp only [Nat.testBit_and, bswap32_testBit _ _ hj]
  · rw [testBit_ge_of_lt (bswap32_lt _) (by omega), Nat.testBit_and,
      testBit_ge_of_lt (bswap32_lt x) (by omega)]
    rfl

theorem bswap32_or (x y : Nat) : bswap32 (x ||| y) = bswap32 x ||| bswap32 y := by
  apply Nat.eq_of_testBit_eq
  intro j
  by_cases hj : j < 32
  · simp only [Nat.testBit_or, bswap32_testBit _ _ hj]
  · rw [testBit_ge_of_lt (bswap32_lt _) (by omega), Nat.testBit_or,
      testBit_ge_of_lt (bswap32_lt x) (by omega), testBit_ge_of_lt (bswap32_lt y) (by omega)]
    rfl

theorem bswap32_testBit_all (x j : Nat) :
    (bswap32 x).testBit j = (decide (j < 32) && x.testBit (8 * (3 - j / 8) + j % 8)) := by
  by_cases hj : j < 32
  · simp [hj, bswap32_testBit]
  · simp [hj, testBit_ge_of_lt (bswap32_lt x) (Nat.le_of_not_lt hj)]

theorem builtin_popcount_bswap32 (x : Nat) :
    builtin_popcount (bswap32 x) = builtin_popcount x := by
  unfold builtin_popcount
  simp only [List.range, List.range.loop, List.map, List.sum_cons, List.sum_nil,
    bswap32_testBit_all]
  simp only [Nat.reduceDiv, Nat.reduceMod, Nat.reduceSub, Nat.reduceMul, Nat.reduceAdd,
    Nat.reduceLT, Nat.ofNat_pos, decide_True, Bool.true_and]
  omega

/-! ## The bit-parallel population count -/

theorem and_split (k x m : Nat) : x &&& m = ((x % 2^k) &&& (m % 2^k)) + 2^k * ((x / 2^k) &&& (m /
    2^k)) := by
  have h1 : (x &&& m) % 2^k = (x % 2^k) &&& (m % 2^k) := by
    apply Nat.eq_of_testBit_eq
    intro i
    simp only [Nat.testBit_mod_two_pow, Nat.testBit_and]
    by_cases h : i < k <;> simp [h]
  have h2 : (x &&& m) / 2^k = (x / 2^k) &&& (m / 2^k) := by
    apply Nat.eq_of_testBit_eq
    intro i
    simp only [← Nat.shiftRight_eq_div_pow, Nat.testBit_shiftRight, Nat.testBit_and]
  rw [← h1, ← h2]
  exact (Nat.mod_add_div _ _).symm

theorem lanes_shift (k d : Nat) (ds : List Nat) (h : d < 2 ^ k) :
    lanes k (d :: ds) >>> k = lanes k ds := by
  simp only [lanes, Nat.shiftRight_eq_div_pow]
  rw [Nat.add_mul_div_left _ _ (Nat.two_pow_pos k), Nat.div_eq_of_lt h, Nat.zero_add]

theorem lanes_and (k : Nat) : ∀ ds ms : List Nat, (∀ d ∈ ds, d < 2 ^ k) → (∀ m ∈ ms, m < 2 ^ k) →
    lanes k ds &&& lanes k ms = lanes k (List.zipWith (fun d m => d &&& m) ds ms)
  | [], _, _, _ => by simp [lanes]
  | _ :: _, [], _, _ => by simp [lanes]
  | d :: ds, m :: ms, hd, hm => by
    have hd0 : d < 2 ^ k := hd d (List.mem_cons_self _ _)
    have hm0 : m < 2 ^ k := hm m (List.mem_cons_self _ _)
    have ih := lanes_and k ds ms (fun x hx => hd x (List.mem_cons_of_mem _ hx))
      (fun x hx => hm x (List.mem_cons_of_mem _ hx))
    simp only [lanes, List.zipWith_cons_cons]
    rw [and_split k, Nat.add_mul_mod_self_left, Nat.add_mul_mod_self_left,
      Nat.mod_eq_of_lt hd0, Nat.mod_eq_of_lt hm0,
      Nat.add_mul_div_left _ _ (Nat.two_pow_pos k), Nat.add_mul_div_left _ _ (Nat.two_pow_pos k),
      Nat.div_eq_of_lt hd0, Nat.div_eq_of_lt hm0, Nat.zero_add, Nat.zero_add, ih]

theorem swar_stage1 (b0 b1 b2 b3 b4 b5 b6 b7 b8 b9 b10 b11 b12 b13 b14 b15 b16 b17 b18 b19 b20 b21
    b22 b23 b24 b25 b26 b27 b28 b29 b30 b31 : Nat) (q0 : b0 < 2) (q1 : b1 < 2) (q2 : b2 < 2) (q3 :
    b3 < 2) (q4 : b4 < 2) (q5 : b5 < 2) (q6 : b6 < 2) (q7 : b7 < 2) (q8 : b8 < 2) (q9 : b9 < 2) (q10
    : b10 < 2) (q11 : b11 < 2) (q12 : b12 < 2) (q13 : b13 < 2) (q14 : b14 < 2) (q15 : b15 < 2) (q16
    : b16 < 2) (q17 : b17 < 2) (q18 : b18 < 2) (q19 : b19 < 2) (q20 : b20 < 2) (q21 : b21 < 2) (q22
    : b22 < 2) (q23 : b23 < 2) (q24 : b24 < 2) (q25 : b25 < 2) (q26 : b26 < 2) (q27 : b27 < 2) (q28
    : b28 < 2) (q29 : b29 < 2) (q30 : b30 < 2) (q31 : b31 < 2) :
    (lanes 1 [b0, b1, b2, b3, b4, b5, b6, b7, b8, b9, b10, b11, b12, b13, b14, b15, b16, b17, b18,
        b19, b20, b21, b22, b23, b24, b25, b26, b27, b28, b29, b30, b31] + 2 ^ 32 - ((lanes 1 [b0,
        b1, b2, b3, b4, b5, b6, b7, b8, b9, b10, b11, b12, b13, b14, b15, b16, b17, b18, b19, b20,
        b21, b22, b23, b24, b25, b26, b27, b28, b29, b30, b31] >>> 1) &&& 0x55555555)) % 2 ^ 32 =
        lanes 2 [b0 + b1, b2 + b3, b4 + b5, b6 + b7, b8 + b9, b10 + b11, b12 + b13, b14 + b15, b16 +
        b17, b18 + b19, b20 + b21, b22 + b23, b24 + b25, b26 + b27, b28 + b29, b30 + b31] := by
  have hm : (0x55555555 : Nat) = lanes 1 [2 ^ 1 - 1, 0, 2 ^ 1 - 1, 0, 2 ^ 1 - 1, 0, 2 ^ 1 - 1, 0, 2
      ^ 1 - 1, 0, 2 ^ 1 - 1, 0, 2 ^ 1 - 1, 0, 2 ^ 1 - 1, 0, 2 ^ 1 - 1, 0, 2 ^ 1 - 1, 0, 2 ^ 1 - 1,
      0, 2 ^ 1 - 1, 0, 2 ^ 1 - 1, 0, 2 ^ 1 - 1, 0, 2 ^ 1 - 1, 0, 2 ^ 1 - 1, 0] := by norm_num
      [lanes]
  have hs : lanes 1 [b0, b1, b2, b3, b4, b5, b6, b7, b8, b9, b10, b11, b12, b13, b14, b15, b16, b17,
      b18, b19, b20, b21, b22, b23, b24, b25, b26, b27, b28, b29, b30, b31] >>> 1 = lanes 1 [b1, b2,
      b3, b4, b5, b6, b7, b8, b9, b10, b11, b12, b13, b14, b15, b16, b17, b18, b19, b20, b21, b22,
      b23, b24, b25, b26, b27, b28, b29, b30, b31] := lanes_shift 1 b0 _ (by omega)
  have hml : ∀ m ∈ [2 ^ 1 - 1, 0, 2 ^ 1 - 1, 0, 2 ^ 1 - 1, 0, 2 ^ 1 - 1, 0, 2 ^ 1 - 1, 0, 2 ^ 1 - 1,
      0, 2 ^ 1 - 1, 0, 2 ^ 1 - 1, 0, 2 ^ 1 - 1, 0, 2 ^ 1 - 1, 0, 2 ^ 1 - 1, 0, 2 ^ 1 - 1, 0, 2 ^ 1 -
      1, 0, 2 ^ 1 - 1, 0, 2 ^ 1 - 1, 0, 2 ^ 1 - 1, 0], m < 2 ^ 1 := by decide
  have hd1 : ∀ d ∈ [b1, b2, b3, b4, b5, b6, b7, b8, b9, b10, b11, b12, b13, b14, b15, b16, b17, b18,
      b19, b20, b21, b22, b23, b24, b25, b26, b27, b28, b29, b30, b31], d < 2 ^ 1 := by
    intro d hd
    simp only [List.mem_cons, List.mem_singleton, List.not_mem_nil, or_false] at hd
    omega
  have hd0 : ∀ d ∈ [b0, b1, b2, b3, b4, b5, b6, b7, b8, b9, b10, b11, b12, b13, b14, b15, b16, b17,
      b18, b19, b20, b21, b22, b23, b24, b25, b26, b27, b28, b29, b30, b31], d < 2 ^ 1 := by
    intro d hd
    simp only [List.mem_cons, List.mem_singleton, List.not_mem_nil, or_false] at hd
    omega
  rw [hs, hm, lanes_and 1 _ _ hd1 hml]
  simp only [List.zipWith, Nat.and_pow_two_sub_one_eq_mod, Nat.and_zero, Nat.mod_eq_of_lt
      (show b0 < 2 ^ 1 by omega), Nat.mod_eq_of_lt (show b1 < 2 ^ 1 by omega), Nat.mod_eq_of_lt
      (show b2 < 2 ^ 1 by omega), Nat.mod_eq_of_lt (show b3 < 2 ^ 1 by omega), Nat.mod_eq_of_lt
      (show b4 < 2 ^ 1 by omega), Nat.mod_eq_of_lt (show b5 < 2 ^ 1 by omega), Nat.mod_eq_of_lt
      (show b6 < 2 ^ 1 by omega), Nat.mod_eq_of_lt (show b7 < 2 ^ 1 by omega), Nat.mod_eq_of_lt
      (show b8 < 2 ^ 1 by omega), Nat.mod_eq_of_lt (show b9 < 2 ^ 1 by omega), Nat.mod_eq_of_lt
      (show b10 < 2 ^ 1 by omega), Nat.mod_eq_of_lt (show b11 < 2 ^ 1 by omega), Nat.mod_eq_of_lt
      (show b12 < 2 ^ 1 by omega), Nat.mod_eq_of_lt (show b13 < 2 ^ 1 by omega), Nat.mod_eq_of_lt
      (show b14 < 2 ^ 1 by omega), Nat.mod_eq_of_lt (show b15 < 2 ^ 1 by omega), Nat.mod_eq_of_lt
      (show b16 < 2 ^ 1 by omega), Nat.mod_eq_of_lt (show b17 < 2 ^ 1 by omega), Nat.mod_eq_of_lt
      (show b18 < 2 ^ 1 by omega), Nat.mod_eq_of_lt (show b19 < 2 ^ 1 by omega), Nat.mod_eq_of_lt
      (show b20 < 2 ^ 1 by omega), Nat.mod_eq_of_lt (show b21 < 2 ^ 1 by omega), Nat.mod_eq_of_lt
      (show b22 < 2 ^ 1 by omega), Nat.mod_eq_of_lt (show b23 < 2 ^ 1 by omega), Nat.mod_eq_of_lt
      (show b24 < 2 ^ 1 by omega), Nat.mod_eq_of_lt (show b25 < 2 ^ 1 by omega), Nat.mod_eq_of_lt
      (show b26 < 2 ^ 1 by omega), Nat.mod_eq_of_lt (show b27 < 2 ^ 1 by omega), Nat.mod_eq_of_lt
      (show b28 < 2 ^ 1 by omega), Nat.mod_eq_of_lt (show b29 < 2 ^ 1 by omega), Nat.mod_eq_of_lt
      (show b30 < 2 ^ 1 by omega), Nat.mod_eq_of_lt (show b31 < 2 ^ 1 by omega)]
  have hX : lanes 1 [b0, b1, b2, b3, b4, b5, b6, b7, b8, b9, b10, b11, b12, b13, b14, b15, b16, b17,
      b18, b19, b20, b21, b22, b23, b24, b25, b26, b27, b28, b29, b30, b31] = lanes 2 [b0 + b1, b2 +
      b3, b4 + b5, b6 + b7, b8 + b9, b10 + b11, b12 + b13, b14 + b15, b16 + b17, b18 + b19, b20 +
      b21, b22 + b23, b24 + b25, b26 + b27, b28 + b29, b30 + b31] + lanes 1 [b1, 0, b3, 0, b5, 0,
      b7, 0, b9, 0, b11, 0, b13, 0, b15, 0, b17, 0, b19, 0, b21, 0, b23, 0, b25, 0, b27, 0, b29, 0,
      b31] := by
    simp only [lanes]; ring
  have hR : lanes 2 [b0 + b1, b2 + b3, b4 + b5, b6 + b7, b8 + b9, b10 + b11, b12 + b13, b14 + b15,
      b16 + b17, b18 + b19, b20 + b21, b22 + b23, b24 + b25, b26 + b27, b28 + b29, b30 + b31] < 2 ^
      32 := by
    simp only [lanes]; omega
  rw [hX, Nat.add_right_comm, Nat.add_sub_cancel, Nat.add_mod_right, Nat.mod_eq_of_lt hR]

theorem swar_stage2 (e0 e1 e2 e3 e4 e5 e6 e7 e8 e9 e10 e11 e12 e13 e14 e15 : Nat) (q0 : e0 < 3) (q1
    : e1 < 3) (q2 : e2 < 3) (q3 : e3 < 3) (q4 : e4 < 3) (q5 : e5 < 3) (q6 : e6 < 3) (q7 : e7 < 3)
    (q8 : e8 < 3) (q9 : e9 < 3) (q10 : e10 < 3) (q11 : e11 < 3) (q12 : e12 < 3) (q13 : e13 < 3) (q14
    : e14 < 3) (q15 : e15 < 3) :
    (((lanes 2 [e0, e1, e2, e3, e4, e5, e6, e7, e8, e9, e10, e11, e12, e13, e14, e15] >>> 2) &&&
        0x33333333) + (lanes 2 [e0, e1, e2, e3, e4, e5, e6, e7, e8, e9, e10, e11, e12, e13, e14,
        e15] &&& 0x33333333)) % 2 ^ 32 = lanes 4 [e0 + e1, e2 + e3, e4 + e5, e6 + e7, e8 + e9, e10 +
        e11, e12 + e13, e14 + e15] := by
  have hm : (0x33333333 : Nat) = lanes 2 [2 ^ 2 - 1, 0, 2 ^ 2 - 1, 0, 2 ^ 2 - 1, 0, 2 ^ 2 - 1, 0, 2
      ^ 2 - 1, 0, 2 ^ 2 - 1, 0, 2 ^ 2 - 1, 0, 2 ^ 2 - 1, 0] := by norm_num [lanes]
  have hs : lanes 2 [e0, e1, e2, e3, e4, e5, e6, e7, e8, e9, e10, e11, e12, e13, e14, e15] >>> 2 =
      lanes 2 [e1, e2, e3, e4, e5, e6, e7, e8, e9, e10, e11, e12, e13, e14, e15] := lanes_shift 2 e0
      _ (by omega)
  have hml : ∀ m ∈ [2 ^ 2 - 1, 0, 2 ^ 2 - 1, 0, 2 ^ 2 - 1, 0, 2 ^ 2 - 1, 0, 2 ^ 2 - 1, 0, 2 ^ 2 - 1,
      0, 2 ^ 2 - 1, 0, 2 ^ 2 - 1, 0], m < 2 ^ 2 := by decide
  have hd1 : ∀ d ∈ [e1, e2, e3, e4, e5, e6, e7, e8, e9, e10, e11, e12, e13, e14, e15], d < 2 ^ 2 :=
      by
    intro d hd
    simp only [List.mem_cons, List.mem_singleton, List.not_mem_nil, or_false] at hd
    omega
  have hd0 : ∀ d ∈ [e0, e1, e2, e3, e4, e5, e6, e7, e8, e9, e10, e11, e12, e13, e14, e15], d < 2 ^ 2
      := by
    intro d hd
    simp only [List.mem_cons, List.mem_singleton, List.not_mem_nil, or_false] at hd
    omega
  rw [hs, hm, lanes_and 2 _ _ hd1 hml, lanes_and 2 _ _ hd0 hml]
  simp only [List.zipWith, Nat.and_pow_two_sub_one_eq_mod, Nat.and_zero, Nat.mod_eq_of_lt
      (show e0 < 2 ^ 2 by omega), Nat.mod_eq_of_lt (show e1 < 2 ^ 2 by omega), Nat.mod_eq_of_lt
      (show e2 < 2 ^ 2 by omega), Nat.mod_eq_of_lt (show e3 < 2 ^ 2 by omega), Nat.mod_eq_of_lt
      (show e4 < 2 ^ 2 by omega), Nat.mod_eq_of_lt (show e5 < 2 ^ 2 by omega), Nat.mod_eq_of_lt
      (show e6 < 2 ^ 2 by omega), Nat.mod_eq_of_lt (show e7 < 2 ^ 2 by omega), Nat.mod_eq_of_lt
      (show e8 < 2 ^ 2 by omega), Nat.mod_eq_of_lt (show e9 < 2 ^ 2 by omega), Nat.mod_eq_of_lt
      (show e10 < 2 ^ 2 by omega), Nat.mod_eq_of_lt (show e11 < 2 ^ 2 by omega), Nat.mod_eq_of_lt
      (show e12 < 2 ^ 2 by omega), Nat.mod_eq_of_lt (show e13 < 2 ^ 2 by omega), Nat.mod_eq_of_lt
      (show e14 < 2 ^ 2 by omega), Nat.mod_eq_of_lt (show e15 < 2 ^ 2 by omega)]
  simp only [lanes]
  omega

theorem swar_stage3 (f0 f1 f2 f3 f4 f5 f6 f7 : Nat) (q0 : f0 < 5) (q1 : f1 < 5) (q2 : f2 < 5) (q3 :
    f3 < 5) (q4 : f4 < 5) (q5 : f5 < 5) (q6 : f6 < 5) (q7 : f7 < 5) :
    (((lanes 4 [f0, f1, f2, f3, f4, f5, f6, f7] >>> 4) + lanes 4 [f0, f1, f2, f3, f4, f5, f6, f7]) %
        2 ^ 32) &&& 0x0F0F0F0F = lanes 8 [f0 + f1, f2 + f3, f4 + f5, f6 + f7] := by
  have hm : (0x0F0F0F0F : Nat) = lanes 4 [2 ^ 4 - 1, 0, 2 ^ 4 - 1, 0, 2 ^ 4 - 1, 0, 2 ^ 4 - 1, 0] :=
      by norm_num [lanes]
  have hs : lanes 4 [f0, f1, f2, f3, f4, f5, f6, f7] >>> 4 = lanes 4 [f1, f2, f3, f4, f5, f6, f7] :=
      lanes_shift 4 f0 _ (by omega)
  have hml : ∀ m ∈ [2 ^ 4 - 1, 0, 2 ^ 4 - 1, 0, 2 ^ 4 - 1, 0, 2 ^ 4 - 1, 0], m < 2 ^ 4 := by decide
  have hsum : lanes 4 [f1, f2, f3, f4, f5, f6, f7] + lanes 4 [f0, f1, f2, f3, f4, f5, f6, f7] =
      lanes 4 [f0 + f1, f1 + f2, f2 + f3, f3 + f4, f4 + f5, f5 + f6, f6 + f7, f7] := by
    simp only [lanes]; ring
  have hlt : lanes 4 [f0 + f1, f1 + f2, f2 + f3, f3 + f4, f4 + f5, f5 + f6, f6 + f7, f7] < 2 ^ 32 :=
      by simp only [lanes]; omega
  have hd : ∀ d ∈ [f0 + f1, f1 + f2, f2 + f3, f3 + f4, f4 + f5, f5 + f6, f6 + f7, f7], d < 2 ^ 4 :=
      by
    intro d hd
    simp only [List.mem_cons, List.mem_singleton, List.not_mem_nil, or_false] at hd
    omega
  rw [hs, hsum, Nat.mod_eq_of_lt hlt, hm, lanes_and 4 _ _ hd hml]
  simp only [List.zipWith, Nat.and_pow_two_sub_one_eq_mod, Nat.and_zero, Nat.mod_eq_of_lt
      (show f0 + f1 < 2 ^ 4 by omega), Nat.mod_eq_of_lt (show f1 + f2 < 2 ^ 4 by omega),
      Nat.mod_eq_of_lt (show f2 + f3 < 2 ^ 4 by omega), Nat.mod_eq_of_lt
      (show f3 + f4 < 2 ^ 4 by omega), Nat.mod_eq_of_lt (show f4 + f5 < 2 ^ 4 by omega),
      Nat.mod_eq_of_lt (show f5 + f6 < 2 ^ 4 by omega), Nat.mod_eq_of_lt
      (show f6 + f7 < 2 ^ 4 by omega), Nat.mod_eq_of_lt (show f7 < 2 ^ 4 by omega)]
  simp only [lanes]
  omega

theorem swar_stage4 (g0 g1 g2 g3 : Nat) (q0 : g0 < 9) (q1 : g1 < 9) (q2 : g2 < 9) (q3 : g3 < 9) :
    (((lanes 8 [g0, g1, g2, g3] >>> 8) + lanes 8 [g0, g1, g2, g3]) % 2 ^ 32) &&& 0x00FF00FF = lanes
        16 [g0 + g1, g2 + g3] := by
  have hm : (0x00FF00FF : Nat) = lanes 8 [2 ^ 8 - 1, 0, 2 ^ 8 - 1, 0] := by norm_num [lanes]
  have hs : lanes 8 [g0, g1, g2, g3] >>> 8 = lanes 8 [g1, g2, g3] := lanes_shift 8 g0 _ (by omega)
  have hml : ∀ m ∈ [2 ^ 8 - 1, 0, 2 ^ 8 - 1, 0], m < 2 ^ 8 := by decide
  have hsum : lanes 8 [g1, g2, g3] + lanes 8 [g0, g1, g2, g3] = lanes 8 [g0 + g1, g1 + g2, g2 + g3,
      g3] := by
    simp only [lanes]; ring
  have hlt : lanes 8 [g0 + g1, g1 + g2, g2 + g3, g3] < 2 ^ 32 := by simp only [lanes]; omega
  have hd : ∀ d ∈ [g0 + g1, g1 + g2, g2 + g3, g3], d < 2 ^ 8 := by
    intro d hd
    simp only [List.mem_cons, List.mem_singleton, List.not_mem_nil, or_false] at hd
    omega
  rw [hs, hsum, Nat.mod_eq_of_lt hlt, hm, lanes_and 8 _ _ hd hml]
  simp only [List.zipWith, Nat.and_pow_two_sub_one_eq_mod, Nat.and_zero, Nat.mod_eq_of_lt
      (show g0 + g1 < 2 ^ 8 by omega), Nat.mod_eq_of_lt (show g1 + g2 < 2 ^ 8 by omega),
      Nat.mod_eq_of_lt (show g2 + g3 < 2 ^ 8 by omega), Nat.mod_eq_of_lt (show g3 < 2 ^ 8 by omega)]
  simp only [lanes]
  omega

theorem swar_stage5 (h0 h1 : Nat) (q0 : h0 < 17) (q1 : h1 < 17) :
    (((lanes 16 [h0, h1] >>> 16) + lanes 16 [h0, h1]) % 2 ^ 32) &&& 0x0000FFFF = h0 + h1 := by
  have hm : (0x0000FFFF : Nat) = lanes 16 [2 ^ 16 - 1, 0] := by norm_num [lanes]
  have hs : lanes 16 [h0, h1] >>> 16 = lanes 16 [h1] := lanes_shift 16 h0 _ (by omega)
  have hml : ∀ m ∈ [2 ^ 16 - 1, 0], m < 2 ^ 16 := by decide
  have hsum : lanes 16 [h1] + lanes 16 [h0, h1] = lanes 16 [h0 + h1, h1] := by
    simp only [lanes]; ring
  have hlt : lanes 16 [h0 + h1, h1] < 2 ^ 32 := by simp only [lanes]; omega
  have hd : ∀ d ∈ [h0 + h1, h1], d < 2 ^ 16 := by
    intro d hd
    simp only [List.mem_cons, List.mem_singleton, List.not_mem_nil, or_false] at hd
    omega
  rw [hs, hsum, Nat.mod_eq_of_lt hlt, hm, lanes_and 16 _ _ hd hml]
  simp only [List.zipWith, Nat.and_pow_two_sub_one_eq_mod, Nat.and_zero, Nat.mod_eq_of_lt
      (show h0 + h1 < 2 ^ 16 by omega), Nat.mod_eq_of_lt (show h1 < 2 ^ 16 by omega)]
  simp only [lanes]
  omega

theorem swar_lanes (b : Nat → Nat) (hb : ∀ j, b j < 2) :
    swar (lanes 1 [b 0, b 1, b 2, b 3, b 4, b 5, b 6, b 7, b 8, b 9, b 10, b 11, b 12, b 13, b 14, b
        15, b 16, b 17, b 18, b 19, b 20, b 21, b 22, b 23, b 24, b 25, b 26, b 27, b 28, b 29, b
        30, b 31]) = ([b 0, b 1, b 2, b 3, b 4, b 5, b 6, b 7, b 8, b 9, b 10, b 11, b 12, b 13, b
        14, b 15, b 16, b 17, b 18, b 19, b 20, b 21, b 22, b 23, b 24, b 25, b 26, b 27, b 28, b
        29, b 30, b 31]).sum := by
  simp only [swar]
  rw [swar_stage1 (b 0) (b 1) (b 2) (b 3) (b 4) (b 5) (b 6) (b 7) (b 8) (b 9) (b 10) (b 11) (b 12)
      (b 13) (b 14) (b 15) (b 16) (b 17) (b 18) (b 19) (b 20) (b 21) (b 22) (b 23) (b 24) (b 25) (b
      26) (b 27) (b 28) (b 29) (b 30) (b 31) (hb 0) (hb 1) (hb 2) (hb 3) (hb 4) (hb 5) (hb 6) (hb 7)
      (hb 8) (hb 9) (hb 10) (hb 11) (hb 12) (hb 13) (hb 14) (hb 15) (hb 16) (hb 17) (hb 18) (hb 19)
      (hb 20) (hb 21) (hb 22) (hb 23) (hb 24) (hb 25) (hb 26) (hb 27) (hb 28) (hb 29) (hb 30) (hb
      31)]
  rw [swar_stage2 (b 0 + b 1) (b 2 + b 3) (b 4 + b 5) (b 6 + b 7) (b 8 + b 9) (b 10 + b 11) (b 12 +
      b 13) (b 14 + b 15) (b 16 + b 17) (b 18 + b 19) (b 20 + b 21) (b 22 + b 23) (b 24 + b 25) (b
      26 + b 27) (b 28 + b 29) (b 30 + b 31) (by have := hb 0; have := hb 1; omega)
      (by have := hb 2; have := hb 3; omega) (by have := hb 4; have := hb 5; omega)
      (by have := hb 6; have := hb 7; omega) (by have := hb 8; have := hb 9; omega)
      (by have := hb 10; have := hb 11; omega) (by have := hb 12; have := hb 13; omega)
      (by have := hb 14; have := hb 15; omega) (by have := hb 16; have := hb 17; omega)
      (by have := hb 18; have := hb 19; omega) (by have := hb 20; have := hb 21; omega)
      (by have := hb 22; have := hb 23; omega) (by have := hb 24; have := hb 25; omega)
      (by have := hb 26; have := hb 27; omega) (by have := hb 28; have := hb 29; omega)
      (by have := hb 30; have := hb 31; omega)]
  rw [swar_stage3 (b 0 + b 1 + (b 2 + b 3)) (b 4 + b 5 + (b 6 + b 7)) (b 8 + b 9 + (b 10 + b 11)) (b
      12 + b 13 + (b 14 + b 15)) (b 16 + b 17 + (b 18 + b 19)) (b 20 + b 21 + (b 22 + b 23)) (b 24 +
      b 25 + (b 26 + b 27)) (b 28 + b 29 + (b 30 + b 31))
      (by have := hb 0; have := hb 1; have := hb 2; have := hb 3; omega)
      (by have := hb 4; have := hb 5; have := hb 6; have := hb 7; omega)
      (by have := hb 8; have := hb 9; have := hb 10; have := hb 11; omega)
      (by have := hb 12; have := hb 13; have := hb 14; have := hb 15; omega)
      (by have := hb 16; have := hb 17; have := hb 18; have := hb 19; omega)
      (by have := hb 20; have := hb 21; have := hb 22; have := hb 23; omega)
      (by have := hb 24; have := hb 25; have := hb 26; have := hb 27; omega)
      (by have := hb 28; have := hb 29; have := hb 30; have := hb 31; omega)]
  rw [swar_stage4 (b 0 + b 1 + (b 2 + b 3) + (b 4 + b 5 + (b 6 + b 7))) (b 8 + b 9 + (b 10 + b 11) +
      (b 12 + b 13 + (b 14 + b 15))) (b 16 + b 17 + (b 18 + b 19) + (b 20 + b 21 + (b 22 + b 23)))
      (b 24 + b 25 + (b 26 + b 27) + (b 28 + b 29 + (b 30 + b 31)))
      (by have := hb 0; have := hb 1; have := hb 2; have := hb 3; have := hb 4; have := hb 5; have := hb 6; have := hb 7; omega)
      (by have := hb 8; have := hb 9; have := hb 10; have := hb 11; have := hb 12; have := hb 13; have := hb 14; have := hb 15; omega)
      (by have := hb 16; have := hb 17; have := hb 18; have := hb 19; have := hb 20; have := hb 21; have := hb 22; have := hb 23; omega)
      (by have := hb 24; have := hb 25; have := hb 26; have := hb 27; have := hb 28; have := hb 29; have := hb 30; have := hb 31; omega)]
  rw [swar_stage5 (b 0 + b 1 + (b 2 + b 3) + (b 4 + b 5 + (b 6 + b 7)) + (b 8 + b 9 + (b 10 + b 11)
      + (b 12 + b 13 + (b 14 + b 15)))) (b 16 + b 17 + (b 18 + b 19) + (b 20 + b 21 + (b 22 + b 23))
      + (b 24 + b 25 + (b 26 + b 27) + (b 28 + b 29 + (b 30 + b 31))))
      (by have := hb 0; have := hb 1; have := hb 2; have := hb 3; have := hb 4; have := hb 5; have := hb 6; have := hb 7; have := hb 8; have := hb 9; have := hb 10; have := hb 11; have := hb 12; have := hb 13; have := hb 14; have := hb 15; omega)
      (by have := hb 16; have := hb 17; have := hb 18; have := hb 19; have := hb 20; have := hb 21; have := hb 22; have := hb 23; have := hb 24; have := hb 25; have := hb 26; have := hb 27; have := hb 28; have := hb 29; have := hb 30; have := hb 31; omega)]
  simp only [List.sum_cons, List.sum_nil]
  omega

theorem lanes_testBit : ∀ n v : Nat, v < 2 ^ n →
    lanes 1 ((List.range n).map (fun j => (v.testBit j).toNat)) = v
  | 0, v, h => by
    have : v = 0 := by simpa using h
    simp [lanes, this]
  | n + 1, v, h => by
    have ih := lanes_testBit n (v / 2) (by rw [Nat.pow_succ] at h; omega)
    rw [List.range_succ_eq_map, List.map_cons, List.map_map]
    have e : ((fun j => (v.testBit j).toNat) ∘ Nat.succ) = fun j => ((v / 2).testBit j).toNat := by
      funext j
      simp [Nat.testBit_succ]
    rw [e, lanes, ih, Nat.toNat_testBit]
    simp only [Nat.pow_zero, Nat.div_one, Nat.pow_one]
    omega

theorem swar_eq (v : Nat) (hv : v < 2 ^ 32) : swar v = builtin_popcount v := by
  have hb : ∀ j, (fun j => (v.testBit j).toNat) j < 2 := fun j => Bool.toNat_lt _
  have h1 := swar_lanes (fun j => (v.testBit j).toNat) hb
  have h2 := lanes_testBit 32 v hv
  have e : (List.range 32).map (fun j => (v.testBit j).toNat) =
      [(v.testBit 0).toNat, (v.testBit 1).toNat, (v.testBit 2).toNat, (v.testBit 3).toNat,
       (v.testBit 4).toNat, (v.testBit 5).toNat, (v.testBit 6).toNat, (v.testBit 7).toNat,
       (v.testBit 8).toNat, (v.testBit 9).toNat, (v.testBit 10).toNat, (v.testBit 11).toNat,
       (v.testBit 12).toNat, (v.testBit 13).toNat, (v.testBit 14).toNat, (v.testBit 15).toNat,
       (v.testBit 16).toNat, (v.testBit 17).toNat, (v.testBit 18).toNat, (v.testBit 19).toNat,
       (v.testBit 20).toNat, (v.testBit 21).toNat, (v.testBit 22).toNat, (v.testBit 23).toNat,
       (v.testBit 24).toNat, (v.testBit 25).toNat, (v.testBit 26).toNat, (v.testBit 27).toNat,
       (v.testBit 28).toNat, (v.testBit 29).toNat, (v.testBit 30).toNat, (v.testBit 31).toNat] :=
           rfl
  unfold builtin_popcount
  rw [e] at h2 ⊢
  simp only [h2] at h1
  exact h1

/-! ## Words in host order and the population count of a bitfield -/

theorem network_to_host_lt (le : Bool) (x : Nat) (h : x < 2 ^ 32) :
    network_to_host le x < 2 ^ 32 := by
  unfold network_to_host
  split
  · exact bswap32_lt x
  · exact h

theorem host_to_network_lt (le : Bool) (x : Nat) (h : x < 2 ^ 32) :
    host_to_network le x < 2 ^ 32 := by
  unfold host_to_network
  split
  · exact bswap32_lt x
  · exact h

theorem network_to_host_host_to_network (le : Bool) (x : Nat) (h : x < 2 ^ 32) :
    network_to_host le (host_to_network le x) = x := by
  unfold network_to_host host_to_network
  split
  · exact bswap32_bswap32 x h
  · rfl

theorem host_to_network_network_to_host (le : Bool) (x : Nat) (h : x < 2 ^ 32) :
    host_to_network le (network_to_host le x) = x := by
  unfold network_to_host host_to_network
  split
  · exact bswap32_bswap32 x h
  · rfl

theorem network_to_host_and (le : Bool) (x y : Nat) :
    network_to_host le (x &&& y) = network_to_host le x &&& network_to_host le y := by
  unfold network_to_host
  split
  · exact bswap32_and x y
  · rfl

theorem network_to_host_or (le : Bool) (x y : Nat) :
    network_to_host le (x ||| y) = network_to_host le x ||| network_to_host le y := by
  unfold network_to_host
  split
  · exact bswap32_or x y
  · rfl

theorem network_to_host_inj (le : Bool) (x y : Nat) (hx : x < 2 ^ 32) (hy : y < 2 ^ 32)
    (h : network_to_host le x = network_to_host le y) : x = y := by
  rw [← host_to_network_network_to_host le x hx, ← host_to_network_network_to_host le y hy, h]

theorem network_to_host_zero (le : Bool) : network_to_host le 0 = 0 := by
  cases le <;> decide

theorem network_to_host_ones (le : Bool) : network_to_host le 0xffffffff = 0xffffffff := by
  cases le <;> decide

theorem network_to_host_eq_zero (le : Bool) (x : Nat) (hx : x < 2 ^ 32) :
    network_to_host le x = 0 ↔ x = 0 := by
  constructor
  · intro h
    exact network_to_host_inj le x 0 hx (by decide) (by rw [h, network_to_host_zero])
  · intro h
    rw [h, network_to_host_zero]

theorem network_to_host_eq_ones (le : Bool) (x : Nat) (hx : x < 2 ^ 32) :
    network_to_host le x = 0xffffffff ↔ x = 0xffffffff := by
  constructor
  · intro h
    exact network_to_host_inj le x 0xffffffff hx (by decide) (by rw [h, network_to_host_ones])
  · intro h
    rw [h, network_to_host_ones]

theorem builtin_popcount_network_to_host (le : Bool) (x : Nat) :
    builtin_popcount (network_to_host le x) = builtin_popcount x := by
  unfold network_to_host
  split
  · exact builtin_popcount_bswap32 x
  · rfl

/-- The population count reads the 32 bits in either direction. -/
theorem builtin_popcount_rev (x : Nat) :
    builtin_popcount x = ∑ r in Finset.range 32, (x.testBit (31 - r)).toNat := by
  unfold builtin_popcount
  simp only [List.range, List.range.loop, List.map, List.sum_cons, List.sum_nil,
    Finset.sum_range_succ, Finset.sum_range_zero, Nat.reduceSub]
  omega

theorem sum_blocks (f : Nat → Nat) : ∀ W : Nat,
    ∑ q in Finset.range W, ∑ r in Finset.range 32, f (32 * q + r) = ∑ i in Finset.range (32 * W), f
        i
  | 0 => by simp
  | W + 1 => by
    rw [Finset.sum_range_succ, sum_blocks f W, Nat.mul_succ, Finset.sum_range_add]

theorem filter_length_eq_sum (p : Nat → Bool) : ∀ n : Nat,
    ((List.range n).filter p).length = ∑ i in Finset.range n, (p i).toNat
  | 0 => by simp
  | n + 1 => by
    rw [List.range_succ, List.filter_append, List.length_append, filter_length_eq_sum p n,
      Finset.sum_range_succ]
    congr 1
    cases h : p n <;> simp [List.filter, h]

theorem words_lt {le : Bool} {s : bitfield} (h : valid le s) (q : Nat) : word s q < 2 ^ 32 := by
  unfold word
  by_cases hq : q < (words s).length
  · rw [List.getD_eq_getElem _ _ hq]
    exact h.2.2.1 _ (List.getElem_mem _)
  · rw [List.getD_eq_default _ _ (Nat.le_of_not_lt hq)]
    decide

theorem get_bit_block (le : Bool) (s : bitfield) (q r : Nat) (hr : r < 32) :
    get_bit le s (32 * q + r) = (network_to_host le (word s q)).testBit (31 - r) := by
  unfold get_bit
  rw [show (32 * q + r) / 32 = q by omega, show (32 * q + r) % 32 = r by omega]

theorem size_le_words (s : bitfield) : size s ≤ 32 * num_words s := by
  unfold num_words; omega

theorem count_eq_sum (mmx le : Bool) (s : bitfield) (h : valid le s) :
    count mmx s = ∑ i in Finset.range (size s), (get_bit le s i).toNat := by
  have hc : count mmx s =
      ∑ q in Finset.range (num_words s), builtin_popcount (network_to_host le (word s q)) := by
    unfold count
    cases mmx
    · simp only [Bool.false_eq_true, if_false, sum_loop_eq, Nat.zero_add]
      exact Finset.sum_congr rfl (fun q _ => by
        rw [swar_eq _ (words_lt h q), builtin_popcount_network_to_host])
    · simp only [if_true, sum_loop_eq, Nat.zero_add]
      exact Finset.sum_congr rfl (fun q _ => by rw [builtin_popcount_network_to_host])
  have hb : ∀ q, builtin_popcount (network_to_host le (word s q)) =
      ∑ r in Finset.range 32, (get_bit le s (32 * q + r)).toNat := by
    intro q
    rw [builtin_popcount_rev]
    exact Finset.sum_congr rfl (fun r hr => by
      rw [get_bit_block le s q r (Finset.mem_range.mp hr)])
  rw [hc]
  simp only [hb]
  rw [sum_blocks (fun i => (get_bit le s i).toNat)]
  obtain ⟨d, hd⟩ := Nat.exists_eq_add_of_le (size_le_words s)
  rw [hd, Finset.sum_range_add]
  have hz : ∑ x in Finset.range d, (get_bit le s (size s + x)).toNat = 0 := by
    apply Finset.sum_eq_zero
    intro x hx
    have := h.2.2.2 (size s + x) (by have := Finset.mem_range.mp hx; omega) (by omega)
    rw [this]; rfl
  rw [hz, Nat.add_zero]

theorem count_eq (mmx le : Bool) (s : bitfield) (h : valid le s) :
    count mmx s = ((List.range (size s)).filter (fun i => get_bit le s i)).length := by
  rw [count_eq_sum mmx le s h, filter_length_eq_sum]

/-! ## Bit-scan intrinsics and `find_first_set` on the hardware path -/

theorem eq_zero_of_low_bits {x : Nat} (hx : x < 2 ^ 32)
    (h : ∀ j, j < 32 → x.testBit j = false) : x = 0 := by
  apply Nat.eq_of_testBit_eq
  intro j
  rw [Nat.zero_testBit]
  by_cases hj : j < 32
  · exact h j hj
  · exact testBit_ge_of_lt hx (Nat.le_of_not_lt hj)

theorem builtin_clz_spec (x : Nat) (hx : x < 2 ^ 32) (h0 : x ≠ 0) :
    ∃ z, builtin_clz x = some z ∧ z < 32 ∧ x.testBit (31 - z) = true ∧
      ∀ k, k < z → x.testBit (31 - k) = false := by
  cases hc : builtin_clz x with
  | none =>
    exfalso
    apply h0
    unfold builtin_clz at hc
    rw [for_up_none] at hc
    apply eq_zero_of_low_bits hx
    intro j hj
    have := hc (31 - j) (by omega)
    rw [Nat.zero_add, show 31 - (31 - j) = j by omega] at this
    by_contra hb
    simp [hb] at this
  | some z =>
    unfold builtin_clz at hc
    rw [for_up_some] at hc
    obtain ⟨j, hj, hr, hlt⟩ := hc
    rw [Nat.zero_add] at hr
    by_cases hb : x.testBit (31 - j) = true
    · simp only [hb, if_true, Option.some.injEq] at hr
      subst hr
      refine ⟨j, rfl, hj, hb, ?_⟩
      intro k hk
      have := hlt k hk
      rw [Nat.zero_add] at this
      by_contra hk2
      simp [hk2] at this
    · simp [hb] at hr

theorem builtin_ctz_spec (x : Nat) (hx : x < 2 ^ 32) (h0 : x ≠ 0) :
    ∃ z, builtin_ctz x = some z ∧ z < 32 ∧ x.testBit z = true ∧
      ∀ k, k < z → x.testBit k = false := by
  cases hc : builtin_ctz x with
  | none =>
    exfalso
    apply h0
    unfold builtin_ctz at hc
    rw [for_up_none] at hc
    apply eq_zero_of_low_bits hx
    intro j hj
    have := hc j hj
    rw [Nat.zero_add] at this
    by_contra hb
    simp [hb] at this
  | some z =>
    unfold builtin_ctz at hc
    rw [for_up_some] at hc
    obtain ⟨j, hj, hr, hlt⟩ := hc
    rw [Nat.zero_add] at hr
    by_cases hb : x.testBit j = true
    · simp only [hb, if_true, Option.some.injEq] at hr
      subst hr
      refine ⟨j, rfl, hj, hb, ?_⟩
      intro k hk
      have := hlt k hk
      rw [Nat.zero_add] at this
      by_contra hk2
      simp [hk2] at this
    · simp [hb] at hr

theorem get_bit_eq (le : Bool) (s : bitfield) (i : Nat) :
    get_bit le s i = (network_to_host le (word s (i / 32))).testBit (31 - i % 32) := rfl

theorem get_bit_of_word_zero (le : Bool) (s : bitfield) (i : Nat) (h : word s (i / 32) = 0) :
    get_bit le s i = false := by
  rw [get_bit_eq, h, network_to_host_zero, Nat.zero_testBit]

theorem lt_size_of_get_bit {le : Bool} {s : bitfield} (h : valid le s) {p : Nat}
    (hp : p < 32 * num_words s) (hb : get_bit le s p = true) : p < size s := by
  by_contra hn
  have := h.2.2.2 p hp (Nat.le_of_not_lt hn)
  rw [this] at hb
  exact absurd hb (by decide)

theorem find_first_set_hw_spec (le : Bool) (s : bitfield) (h : valid le s) :
    (find_first_set true le s = some (-1) ∧ ∀ i, i < size s → get_bit le s i = false) ∨
    (∃ p : Nat, find_first_set true le s = some (p : Int) ∧ p < size s ∧
      get_bit le s p = true ∧ ∀ i, i < p → get_bit le s i = false) := by
  unfold find_first_set
  simp only [if_true]
  cases hf : for_up (fun i =>
      if (word s i == 0) = true then none
      else some (Option.map (fun (z : Nat) => (i : Int) * 32 + (z : Int))
        (builtin_clz (network_to_host le (word s i))))) 0 (num_words s) with
  | none =>
    left
    refine ⟨rfl, ?_⟩
    intro i hi
    rw [for_up_none] at hf
    have hq : i / 32 < num_words s := by unfold num_words; omega
    have := hf (i / 32) hq
    rw [Nat.zero_add] at this
    apply get_bit_of_word_zero
    by_contra hw
    simp [hw] at this
  | some r =>
    right
    rw [for_up_some] at hf
    obtain ⟨q, hq, hr, hlt⟩ := hf
    rw [Nat.zero_add] at hr
    by_cases hw : word s q = 0
    · simp [hw] at hr
    · have hv0 : network_to_host le (word s q) ≠ 0 := fun e =>
        hw ((network_to_host_eq_zero le _ (words_lt h q)).mp e)
      obtain ⟨z, hz, hz32, hzt, hzl⟩ :=
        builtin_clz_spec _ (network_to_host_lt le _ (words_lt h q)) hv0
      simp only [beq_iff_eq, hw, if_false, hz, Option.map_some', Option.some.injEq] at hr
      subst hr
      have hbit : get_bit le s (32 * q + z) = true := by
        rw [get_bit_block le s q z hz32]; exact hzt
      refine ⟨32 * q + z, ?_, lt_size_of_get_bit h (by omega) hbit, hbit, ?_⟩
      · simp only [Nat.cast_add, Nat.cast_mul, Nat.cast_ofNat]
        rw [Int.mul_comm]
      · intro i hi
        by_cases hiq : i / 32 < q
        · have := hlt (i / 32) hiq
          rw [Nat.zero_add] at this
          apply get_bit_of_word_zero
          by_contra hw2
          simp [hw2] at this
        · have e1 : i / 32 = q := by omega
          rw [get_bit_eq, e1]
          exact hzl (i % 32) (by omega)

/-! ## Masks -/

theorem testBit_ones (j : Nat) : (0xffffffff : Nat).testBit j = decide (j < 32) := by
  rw [show (0xffffffff : Nat) = 2 ^ 32 - 1 by decide, Nat.testBit_two_pow_sub_one]

theorem testBit_high_mask (t j : Nat) :
    ((0xffffffff <<< t) % 2 ^ 32).testBit j = decide (t ≤ j ∧ j < 32) := by
  rw [Nat.testBit_mod_two_pow, Nat.testBit_shiftLeft, testBit_ones]
  by_cases h1 : j < 32
  · by_cases h2 : t ≤ j
    · simp only [h1, h2, decide_True, Bool.true_and, and_self, ge_iff_le]
      exact decide_eq_true (by omega)
    · simp [h1, h2]
  · simp [h1]

theorem testBit_low_mask (b j : Nat) :
    (0xffffffff >>> b).testBit j = decide (b + j < 32) := by
  rw [Nat.testBit_shiftRight, testBit_ones]

theorem high_mask_lt (t : Nat) : (0xffffffff <<< t) % 2 ^ 32 < 2 ^ 32 :=
  Nat.mod_lt _ (by decide)

theorem and_31 (n : Nat) : n &&& 31 = n % 32 := by
  rw [show (31 : Nat) = 2 ^ 5 - 1 by decide, Nat.and_pow_two_sub_one_eq_mod]

theorem xor_ones_testBit (x j : Nat) :
    (x ^^^ 0xffffffff).testBit j = (x.testBit j != decide (j < 32)) := by
  rw [Nat.testBit_xor, testBit_ones]

theorem xor_ones_lt (x : Nat) (hx : x < 2 ^ 32) : x ^^^ 0xffffffff < 2 ^ 32 :=
  Nat.xor_lt_two_pow hx (by decide)

theorem xor_ones_ne_zero (x : Nat) (hx : x < 2 ^ 32) (h : x ≠ 0xffffffff) :
    x ^^^ 0xffffffff ≠ 0 := by
  intro e
  apply h
  apply Nat.eq_of_testBit_eq
  intro j
  have := congrArg (fun y => Nat.testBit y j) e
  simp only [xor_ones_testBit, Nat.zero_testBit] at this
  rw [testBit_ones]
  by_cases hj : j < 32
  · simp [hj] at this ⊢
    exact this
  · simp only [hj, decide_False]
    exact testBit_ge_of_lt hx (Nat.le_of_not_lt hj)

theorem read_last {le : Bool} {s : bitfield} (h : valid le s) (hpos : 0 < size s) :
    read s ((num_words s : Int) - 1) = some (word s (num_words s - 1)) := by
  have hW : 0 < num_words s := by unfold num_words; omega
  have hlen := h.2.1
  unfold read word
  cases hb : s.m_buf with
  | none => simp [size, hb] at hpos
  | some b =>
    have hw : words s = b.data := by simp [words, hb]
    rw [hw] at hlen ⊢
    have e1 : ¬ ((num_words s : Int) - 1 = -1) := by omega
    have e2 : (0 : Int) ≤ (num_words s : Int) - 1 := by omega
    have e3 : ((num_words s : Int) - 1).toNat = num_words s - 1 := by omega
    simp only [e1, if_false, e2, if_true, e3]
    rw [List.get?_eq_getElem?, List.getD_eq_getElem?_getD,
      List.getElem?_eq_getElem (by omega)]
    rfl

/-! ## `find_last_clear` on the hardware path, partial final word -/

theorem last_word_arith (s : bitfield) (hrest : size s % 32 ≠ 0) :
    32 * (num_words s - 1) + size s % 32 = size s ∧ 0 < num_words s := by
  unfold num_words; omega

theorem last_word_bits {le : Bool} {s : bitfield} (h : valid le s)
    (hrest : size s % 32 ≠ 0) (r : Nat) (hr : r < 32) :
    (network_to_host le (word s (num_words s - 1)) ^^^
        ((0xffffffff <<< (32 - size s % 32)) % 2 ^ 32)).testBit (31 - r) =
      (decide (r < size s % 32) && !get_bit le s (32 * (num_words s - 1) + r)) := by
  have ha := last_word_arith s hrest
  rw [Nat.testBit_xor, testBit_high_mask, get_bit_block le s _ r hr]
  by_cases hlt : r < size s % 32
  · have e : (32 - size s % 32 ≤ 31 - r ∧ 31 - r < 32) := by omega
    rw [decide_eq_true e, decide_eq_true hlt]
    cases (network_to_host le (word s (num_words s - 1))).testBit (31 - r) <;> rfl
  · have e : ¬ (32 - size s % 32 ≤ 31 - r ∧ 31 - r < 32) := by omega
    have hz := h.2.2.2 (32 * (num_words s - 1) + r) (by omega) (by omega)
    rw [get_bit_block le s _ r hr] at hz
    rw [hz, decide_eq_false e, decide_eq_false hlt]
    rfl

theorem find_last_clear_hw_spec (le : Bool) (wide : Nat) (s : bitfield) (h : valid le s)
    (hrest : size s % 32 ≠ 0) :
    (find_last_clear true le wide s = some (-1) ∧ ∀ i, i < size s → get_bit le s i = true) ∨
    (∃ p : Nat, find_last_clear true le wide s = some (p : Int) ∧ p < size s ∧
      get_bit le s p = false ∧ ∀ i, p < i → i < size s → get_bit le s i = true) := by
  have ha := last_word_arith s hrest
  have hpos : 0 < size s := by omega
  have hsh : shl32 wide 0xffffffff (32 - (size s &&& 31)) =
      (0xffffffff <<< (32 - size s % 32)) % 2 ^ 32 := by
    unfold shl32
    rw [and_31, if_pos (by omega)]
  have hwl := words_lt h (num_words s - 1)
  have hlast_lt : network_to_host le (word s (num_words s - 1)) ^^^
      ((0xffffffff <<< (32 - size s % 32)) % 2 ^ 32) < 2 ^ 32 :=
    Nat.xor_lt_two_pow (network_to_host_lt le _ hwl) (high_mask_lt _)
  unfold find_last_clear
  simp only [read_last h hpos, hsh, if_true]
  by_cases hl0 : network_to_host le (word s (num_words s - 1)) ^^^
      ((0xffffffff <<< (32 - size s % 32)) % 2 ^ 32) = 0
  · -- every bit of the final word below the length is set
    have hfin : ∀ r, r < size s % 32 → get_bit le s (32 * (num_words s - 1) + r) = true := by
      intro r hr
      have := last_word_bits h hrest r (by omega)
      rw [hl0, Nat.zero_testBit] at this
      simp only [hr, decide_True, Bool.true_and] at this
      cases hb : get_bit le s (32 * (num_words s - 1) + r)
      · rw [hb] at this; exact absurd this (by decide)
      · rfl
    simp only [hl0, bne_self_eq_false, Bool.false_eq_true, if_false]
    cases hf : for_down (fun i =>
        if (word s i == 0xffffffff) = true then none
        else some (Option.map (fun (z : Nat) => (i : Int) * 32 + 31 - (z : Int))
          (builtin_ctz (network_to_host le (word s i) ^^^ 0xffffffff)))) (num_words s - 1) with
    | none =>
      left
      refine ⟨rfl, ?_⟩
      intro i hi
      rw [for_down_none] at hf
      by_cases hq : i / 32 < num_words s - 1
      · have := hf (i / 32) hq
        have hw : word s (i / 32) = 0xffffffff := by
          by_contra hw
          simp [hw] at this
        rw [get_bit_eq, hw, network_to_host_ones, testBit_ones]
        exact decide_eq_true (by omega)
      · have := hfin (i % 32) (by omega)
        rwa [show 32 * (num_words s - 1) + i % 32 = i by omega] at this
    | some r =>
      right
      rw [for_down_some] at hf
      obtain ⟨q, hq, hr, hlt⟩ := hf
      by_cases hw : word s q = 0xffffffff
      · simp [hw] at hr
      · have hwq := words_lt h q
        have hn : network_to_host le (word s q) ≠ 0xffffffff := fun e =>
          hw ((network_to_host_eq_ones le _ hwq).mp e)
        obtain ⟨z, hz, hz32, hzt, hzl⟩ := builtin_ctz_spec _
          (xor_ones_lt _ (network_to_host_lt le _ hwq))
          (xor_ones_ne_zero _ (network_to_host_lt le _ hwq) hn)
        simp only [beq_iff_eq, hw, if_false, hz, Option.map_some', Option.some.injEq] at hr
        subst hr
        refine ⟨32 * q + (31 - z), ?_, by omega, ?_, ?_⟩
        · simp only [Nat.cast_add, Nat.cast_mul, Nat.cast_ofNat]
          congr 1
          omega
        · rw [get_bit_block le s q (31 - z) (by omega), show 31 - (31 - z) = z by omega]
          rw [xor_ones_testBit] at hzt
          simp only [hz32, decide_True] at hzt
          cases hb : (network_to_host le (word s q)).testBit z
          · rfl
          · rw [hb] at hzt; exact absurd hzt (by decide)
        · intro i hi1 hi2
          by_cases h1 : i / 32 = q
          · have := hzl (31 - i % 32) (by omega)
            rw [xor_ones_testBit] at this
            have e : 31 - i % 32 < 32 := by omega
            simp only [e, decide_True] at this
            rw [get_bit_eq, h1]
            cases hb : (network_to_host le (word s q)).testBit (31 - i % 32)
            · rw [hb] at this; exact absurd this (by decide)
            · rfl
          · by_cases h2 : i / 32 < num_words s - 1
            · have := hlt (i / 32) (by omega) h2
              have hw2 : word s (i / 32) = 0xffffffff := by
                by_contra hw2
                simp [hw2] at this
              rw [get_bit_eq, hw2, network_to_host_ones, testBit_ones]
              exact decide_eq_true (by omega)
            · have := hfin (i % 32) (by omega)
              rwa [show 32 * (num_words s - 1) + i % 32 = i by omega] at this
  · right
    obtain ⟨z, hz, hz32, hzt, hzl⟩ := builtin_ctz_spec _ hlast_lt hl0
    have hne : (network_to_host le (word s (num_words s - 1)) ^^^
      ((0xffffffff <<< (32 - size s % 32)) % 2 ^ 32) != 0) = true := by
      simpa using hl0
    simp only [hne, if_true, hz, Option.map_some']
    have hb1 := last_word_bits h hrest (31 - z) (by omega)
    rw [show 31 - (31 - z) = z by omega, hzt] at hb1
    have hb2 : 31 - z < size s % 32 ∧ get_bit le s (32 * (num_words s - 1) + (31 - z)) = false := by
      have := hb1.symm
      simp only [Bool.and_eq_true, decide_eq_true_eq, Bool.not_eq_true'] at this
      exact this
    refine ⟨32 * (num_words s - 1) + (31 - z), ?_, by omega, hb2.2, ?_⟩
    · congr 1
      omega
    · intro i hi1 hi2
      have hb3 := last_word_bits h hrest (i % 32) (by omega)
      rw [hzl (31 - i % 32) (by omega),
        show 32 * (num_words s - 1) + i % 32 = i by omega] at hb3
      have e : i % 32 < size s % 32 := by omega
      simp only [e, decide_True, Bool.true_and] at hb3
      cases hb : get_bit le s i
      · rw [hb] at hb3; exact absurd hb3 (by decide)
      · rfl

/-! ## `all_set` -/

theorem exists_clear_bit (x : Nat) (hx : x < 2 ^ 32) (h : x ≠ 0xffffffff) :
    ∃ j, j < 32 ∧ x.testBit j = false := by
  by_contra hn
  apply h
  apply Nat.eq_of_testBit_eq
  intro j
  rw [testBit_ones]
  by_cases hj : j < 32
  · rw [decide_eq_true hj]
    cases hb : x.testBit j
    · exact absurd ⟨j, hj, hb⟩ hn
    · rfl
  · rw [decide_eq_false hj]
    exact testBit_ge_of_lt hx (Nat.le_of_not_lt hj)

theorem and_eq_right_iff (x m : Nat) :
    x &&& m = m ↔ ∀ j, m.testBit j = true → x.testBit j = true := by
  constructor
  · intro h j hj
    rw [← h, Nat.testBit_and] at hj
    simp only [Bool.and_eq_true] at hj
    exact hj.1
  · intro h
    apply Nat.eq_of_testBit_eq
    intro j
    rw [Nat.testBit_and]
    cases hm : m.testBit j
    · simp
    · simp [h j hm]

theorem sum_toNat_le (b : Nat → Bool) : ∀ n, ∑ i in Finset.range n, (b i).toNat ≤ n
  | 0 => by simp
  | n + 1 => by
    rw [Finset.sum_range_succ]
    have := sum_toNat_le b n
    have := Bool.toNat_le (b n)
    omega

theorem sum_toNat_eq_iff (b : Nat → Bool) : ∀ n,
    ∑ i in Finset.range n, (b i).toNat = n ↔ ∀ i, i < n → b i = true
  | 0 => by simp
  | n + 1 => by
    rw [Finset.sum_range_succ]
    have ih := sum_toNat_eq_iff b n
    have hle := sum_toNat_le b n
    constructor
    · intro h i hi
      cases hb : b n
      · rw [hb] at h
        simp only [Bool.toNat_false, Nat.add_zero] at h
        omega
      · rw [hb] at h
        simp only [Bool.toNat_true, Nat.add_right_cancel_iff] at h
        rcases Nat.lt_succ_iff_lt_or_eq.mp hi with h1 | h1
        · exact ih.mp h i h1
        · rw [h1]; exact hb
    · intro h
      rw [ih.mpr (fun i hi => h i (by omega)), h n (Nat.lt_succ_self n)]
      rfl

theorem count_eq_size_iff (mmx le : Bool) (s : bitfield) (h : valid le s) :
    count mmx s = size s ↔ ∀ i, i < size s → get_bit le s i = true := by
  rw [count_eq_sum mmx le s h]
  exact sum_toNat_eq_iff _ _

theorem all_set_iff (le : Bool) (s : bitfield) (h : valid le s) :
    all_set le s = true ↔ ∀ i, i < size s → get_bit le s i = true := by
  unfold all_set
  simp only []
  cases hf : for_up (fun i => if (word s i != 0xffffffff) = true then some false else none)
      0 (size s / 32) with
  | some r =>
    rw [for_up_some] at hf
    obtain ⟨q, hq, hr, -⟩ := hf
    rw [Nat.zero_add] at hr
    by_cases hw : word s q = 0xffffffff
    · simp [hw] at hr
    · simp only [bne_iff_ne, ne_eq, hw, not_false_eq_true, if_true, Option.some.injEq] at hr
      subst hr
      simp only [Bool.false_eq_true, false_iff, not_forall]
      have hwq := words_lt h q
      have hn : network_to_host le (word s q) ≠ 0xffffffff := fun e =>
        hw ((network_to_host_eq_ones le _ hwq).mp e)
      obtain ⟨j, hj, hb⟩ := exists_clear_bit _ (network_to_host_lt le _ hwq) hn
      refine ⟨32 * q + (31 - j), by omega, ?_⟩
      rw [get_bit_block le s q (31 - j) (by omega), show 31 - (31 - j) = j by omega, hb]
      decide
  | none =>
    rw [for_up_none] at hf
    have hfull : ∀ i, i / 32 < size s / 32 → get_bit le s i = true := by
      intro i hi
      have := hf (i / 32) hi
      rw [Nat.zero_add] at this
      have hw : word s (i / 32) = 0xffffffff := by
        by_contra hw
        simp [hw] at this
      rw [get_bit_eq, hw, network_to_host_ones, testBit_ones]
      exact decide_eq_true (by omega)
    simp only [and_31]
    by_cases hrest : size s % 32 > 0
    · simp only [hrest, if_true]
      have hM := high_mask_lt (32 - size s % 32)
      have hwl := words_lt h (size s / 32)
      have key : (word s (size s / 32) &&&
            host_to_network le ((0xffffffff <<< (32 - size s % 32)) % 2 ^ 32)) =
            host_to_network le ((0xffffffff <<< (32 - size s % 32)) % 2 ^ 32) ↔
          ∀ r, r < size s % 32 → get_bit le s (32 * (size s / 32) + r) = true := by
        have e1 : (word s (size s / 32) &&&
            host_to_network le ((0xffffffff <<< (32 - size s % 32)) % 2 ^ 32)) =
            host_to_network le ((0xffffffff <<< (32 - size s % 32)) % 2 ^ 32) ↔
            network_to_host le (word s (size s / 32)) &&&
              ((0xffffffff <<< (32 - size s % 32)) % 2 ^ 32) =
              (0xffffffff <<< (32 - size s % 32)) % 2 ^ 32 := by
          constructor
          · intro e
            have := congrArg (network_to_host le) e
            rwa [network_to_host_and, network_to_host_host_to_network le _ hM] at this
          · intro e
            apply network_to_host_inj le _ _
              (Nat.lt_of_le_of_lt Nat.and_le_left hwl) (host_to_network_lt le _ hM)
            rw [network_to_host_and, network_to_host_host_to_network le _ hM, e]
        rw [e1, and_eq_right_iff]
        constructor
        · intro hh r hr
          rw [get_bit_block le s _ r (by omega)]
          apply hh
          rw [testBit_high_mask]
          exact decide_eq_true (by omega)
        · intro hh j hj
          rw [testBit_high_mask] at hj
          have hj2 := of_decide_eq_true hj
          have := hh (31 - j) (by omega)
          rwa [get_bit_block le s _ (31 - j) (by omega), show 31 - (31 - j) = j by omega] at this
      by_cases hk : (word s (size s / 32) &&&
            host_to_network le ((0xffffffff <<< (32 - size s % 32)) % 2 ^ 32)) =
            host_to_network le ((0xffffffff <<< (32 - size s % 32)) % 2 ^ 32)
      · simp only [hk, bne_self_eq_false, Bool.false_eq_true, if_false, true_iff]
        intro i hi
        by_cases hq : i / 32 < size s / 32
        · exact hfull i hq
        · have := key.mp hk (i % 32) (by omega)
          rwa [show 32 * (size s / 32) + i % 32 = i by omega] at this
      · have hk2 : ((word s (size s / 32) &&&
            host_to_network le ((0xffffffff <<< (32 - size s % 32)) % 2 ^ 32)) !=
            host_to_network le ((0xffffffff <<< (32 - size s % 32)) % 2 ^ 32)) = true := by
          simpa using hk
        simp only [hk2, if_true, Bool.false_eq_true, false_iff]
        intro hall
        apply hk
        apply key.mpr
        intro r hr
        exact hall _ (by omega)
    · simp only [hrest, if_false, true_iff]
      intro i hi
      exact hfull i (by omega)

/-! ## Writes, `memset` and the trailing-bit pass -/

theorem getD_range_map (f : Nat → Nat) (n q : Nat) :
    ((List.range n).map f).getD q 0 = if q < n then f q else 0 := by
  by_cases h : q < n
  · rw [if_pos h, List.getD_eq_getElem _ _ (by simpa using h)]
    simp
  · rw [if_neg h, List.getD_eq_default _ _ (by simpa using h)]

theorem getD_set (l : List Nat) (k v q : Nat) :
    (l.set k v).getD q 0 = if q = k ∧ k < l.length then v else l.getD q 0 := by
  simp only [List.getD_eq_getElem?_getD, List.getElem?_set]
  by_cases h1 : k = q
  · subst h1
    by_cases h2 : k < l.length
    · simp [h2]
    · simp [h2, List.getElem?_eq_none (Nat.le_of_not_lt h2)]
  · have h3 : ¬ (q = k ∧ k < l.length) := fun hh => h1 hh.1.symm
    simp [h1, h3]

theorem forall_mem_iff_getD (l : List Nat) :
    (∀ w ∈ l, w < 2 ^ 32) ↔ ∀ q, l.getD q 0 < 2 ^ 32 := by
  constructor
  · intro h q
    by_cases hq : q < l.length
    · rw [List.getD_eq_getElem _ _ hq]
      exact h _ (List.getElem_mem _)
    · rw [List.getD_eq_default _ _ (Nat.le_of_not_lt hq)]
      decide
  · intro h w hw
    obtain ⟨q, hq, rfl⟩ := List.getElem_of_mem hw
    have := h q
    rwa [List.getD_eq_getElem _ _ hq] at this

/-- Validity in terms of the word reads. -/
theorem valid_iff (le : Bool) (s : bitfield) : valid le s ↔
    ((s.m_buf.isSome = true ↔ 0 < size s) ∧ (words s).length = num_words s ∧
      (∀ q, word s q < 2 ^ 32) ∧
      ∀ j, j < 32 * num_words s → size s ≤ j → get_bit le s j = false) := by
  unfold valid word
  rw [forall_mem_iff_getD]

theorem size_write (s : bitfield) (k v : Nat) : size (write s k v) = size s := by
  rcases s with ⟨_ | b⟩ <;> rfl

theorem words_write (s : bitfield) (k v : Nat) : words (write s k v) = (words s).set k v := by
  rcases s with ⟨_ | b⟩ <;> rfl

theorem isSome_write (s : bitfield) (k v : Nat) :
    (write s k v).m_buf.isSome = s.m_buf.isSome := by
  rcases s with ⟨_ | b⟩ <;> rfl

theorem word_write (s : bitfield) (k v q : Nat) :
    word (write s k v) q = if q = k ∧ k < (words s).length then v else word s q := by
  unfold word
  rw [words_write, getD_set]

theorem size_memset (s : bitfield) (st fill n : Nat) : size (memset s st fill n) = size s := by
  rcases s with ⟨_ | b⟩ <;> rfl

theorem isSome_memset (s : bitfield) (st fill n : Nat) :
    (memset s st fill n).m_buf.isSome = s.m_buf.isSome := by
  rcases s with ⟨_ | b⟩ <;> rfl

theorem words_memset (s : bitfield) (st fill n : Nat) :
    words (memset s st fill n) = (List.range (words s).length).map
      (fun i => if st ≤ i ∧ i < st + n then fill else (words s).getD i 0) := by
  rcases s with ⟨_ | b⟩ <;> rfl

theorem word_memset (s : bitfield) (st fill n q : Nat) :
    word (memset s st fill n) q =
      if q < (words s).length ∧ st ≤ q ∧ q < st + n then fill else word s q := by
  unfold word
  rw [words_memset, getD_range_map]
  by_cases h1 : q < (words s).length
  · by_cases h2 : st ≤ q ∧ q < st + n
    · rw [if_pos h1, if_pos h2, if_pos ⟨h1, h2⟩]
    · rw [if_pos h1, if_neg h2, if_neg (fun hh => h2 hh.2)]
  · rw [if_neg h1, if_neg (fun hh => h1 hh.1), List.getD_eq_default _ _ (Nat.le_of_not_lt h1)]

theorem length_words_write (s : bitfield) (k v : Nat) :
    (words (write s k v)).length = (words s).length := by
  rw [words_write, List.length_set]

theorem length_words_memset (s : bitfield) (st fill n : Nat) :
    (words (memset s st fill n)).length = (words s).length := by
  rw [words_memset, List.length_map, List.length_range]

theorem size_clear_trailing_bits (le : Bool) (s : bitfield) :
    size (clear_trailing_bits le s) = size s := by
  unfold clear_trailing_bits
  split
  · exact size_write _ _ _
  · rfl

theorem num_words_clear_trailing_bits (le : Bool) (s : bitfield) :
    num_words (clear_trailing_bits le s) = num_words s := by
  unfold num_words
  rw [size_clear_trailing_bits]

theorem isSome_clear_trailing_bits (le : Bool) (s : bitfield) :
    (clear_trailing_bits le s).m_buf.isSome = s.m_buf.isSome := by
  unfold clear_trailing_bits
  split
  · exact isSome_write _ _ _
  · rfl

theorem length_words_clear_trailing_bits (le : Bool) (s : bitfield) :
    (words (clear_trailing_bits le s)).length = (words s).length := by
  unfold clear_trailing_bits
  split
  · exact length_words_write _ _ _
  · rfl

theorem word_clear_trailing_bits (le : Bool) (s : bitfield) (q : Nat) :
    word (clear_trailing_bits le s) q =
      if size s % 32 ≠ 0 ∧ q = num_words s - 1 then
        word s q &&& host_to_network le ((0xffffffff <<< (32 - size s % 32)) % 2 ^ 32)
      else word s q := by
  unfold clear_trailing_bits
  rw [and_31]
  by_cases hr : size s % 32 = 0
  · simp [hr]
  · have hr2 : (size s % 32 != 0) = true := by simpa using hr
    rw [if_pos hr2, word_write]
    by_cases hq : q = num_words s - 1
    · subst hq
      by_cases hl : num_words s - 1 < (words s).length
      · simp [hl, hr]
      · have hw : word s (num_words s - 1) = 0 := by
          unfold word
          exact List.getD_eq_default _ _ (Nat.le_of_not_lt hl)
        simp [hl, hr, hw]
    · simp [hq]

theorem get_bit_clear_trailing_bits (le : Bool) (s : bitfield) (i : Nat)
    (hi : i < 32 * num_words s) :
    get_bit le (clear_trailing_bits le s) i = (get_bit le s i && decide (i < size s)) := by
  rw [get_bit_eq, word_clear_trailing_bits]
  by_cases hc : size s % 32 ≠ 0 ∧ i / 32 = num_words s - 1
  · have ha := last_word_arith s hc.1
    rw [if_pos hc, network_to_host_and,
      network_to_host_host_to_network le _ (high_mask_lt _), Nat.testBit_and,
      testBit_high_mask, ← get_bit_eq]
    congr 1
    by_cases h1 : i < size s
    · rw [decide_eq_true h1]
      exact decide_eq_true (by omega)
    · rw [decide_eq_false h1]
      exact decide_eq_false (by omega)
  · rw [if_neg hc, ← get_bit_eq]
    have h1 : i < size s := by
      unfold num_words at hi hc
      omega
    rw [decide_eq_true h1, Bool.and_true]

theorem word_clear_trailing_bits_lt (le : Bool) (s : bitfield) (q : Nat)
    (h : word s q < 2 ^ 32) : word (clear_trailing_bits le s) q < 2 ^ 32 := by
  rw [word_clear_trailing_bits]
  split
  · exact Nat.lt_of_le_of_lt Nat.and_le_left h
  · exact h

/-- The trailing-bit pass establishes the invariant on any block of the right shape. -/
theorem valid_clear_trailing_bits (le : Bool) (s : bitfield)
    (h1 : s.m_buf.isSome = true ↔ 0 < size s) (h2 : (words s).length = num_words s)
    (h3 : ∀ q, word s q < 2 ^ 32) : valid le (clear_trailing_bits le s) := by
  rw [valid_iff]
  refine ⟨?_, ?_, ?_, ?_⟩
  · rw [isSome_clear_trailing_bits, size_clear_trailing_bits]
    exact h1
  · rw [length_words_clear_trailing_bits, num_words_clear_trailing_bits]
    exact h2
  · intro q
    exact word_clear_trailing_bits_lt le s q (h3 q)
  · intro j hj1 hj2
    rw [num_words_clear_trailing_bits] at hj1
    rw [size_clear_trailing_bits] at hj2
    rw [get_bit_clear_trailing_bits le s j hj1, decide_eq_false (by omega), Bool.and_false]

/-! ## `resize(bits)` -/

theorem size_reallocated (g : Nat → Nat) (n : Nat) (s : bitfield) :
    size (reallocated g n s) = n := rfl

theorem num_words_reallocated (g : Nat → Nat) (n : Nat) (s : bitfield) :
    num_words (reallocated g n s) = (n + 31) / 32 := rfl

theorem length_words_reallocated (g : Nat → Nat) (n : Nat) (s : bitfield) :
    (words (reallocated g n s)).length = (n + 31) / 32 := by
  simp [reallocated, words]

theorem word_reallocated (g : Nat → Nat) (n : Nat) (s : bitfield) (q : Nat) :
    word (reallocated g n s) q =
      if q < (n + 31) / 32 then (if q < (words s).length then word s q else g q % 2 ^ 32)
      else 0 := by
  unfold word reallocated words
  simp only []
  rw [getD_range_map]
  rfl

theorem resize_some (le : Bool) (g : Nat → Nat) (n : Nat) (s : bitfield) :
    resize le (some g) n s = .ok (if n = size s then s else if n = 0 then ⟨none⟩
      else clear_trailing_bits le (reallocated g n s)) := by
  unfold resize
  by_cases h1 : n = size s
  · simp [h1]
  · by_cases h2 : n = 0
    · simp only [if_neg h1, if_pos h2]
    · simp only [h1, h2, if_false]
      rcases s with ⟨_ | b⟩
      · simp [reallocated, words]
      · simp [reallocated, words, word]

theorem resize_none (le : Bool) (n : Nat) (s : bitfield) :
    resize le none n s = if n = size s then .ok s else if n = 0 then .ok ⟨none⟩
      else .error error.bad_alloc := by
  unfold resize
  by_cases h1 : n = size s
  · simp [h1]
  · by_cases h2 : n = 0
    · simp only [if_neg h1, if_pos h2]
    · simp only [h1, h2, if_false]
      rcases s with ⟨_ | b⟩ <;> rfl

theorem valid_empty (le : Bool) : valid le ⟨none⟩ := by
  cases le <;> decide

theorem word_reallocated_lt {le : Bool} {s : bitfield} (h : valid le s) (g : Nat → Nat)
    (n q : Nat) : word (reallocated g n s) q < 2 ^ 32 := by
  rw [word_reallocated]
  split
  · split
    · exact words_lt h q
    · exact Nat.mod_lt _ (by decide)
  · decide

theorem valid_resized {le : Bool} {s : bitfield} (h : valid le s) (g : Nat → Nat) (n : Nat)
    (hn : n ≠ 0) : valid le (clear_trailing_bits le (reallocated g n s)) := by
  apply valid_clear_trailing_bits
  · rw [size_reallocated]
    simp only [reallocated, Option.isSome_some, true_iff]
    omega
  · rw [length_words_reallocated, num_words_reallocated]
  · exact word_reallocated_lt h g n

theorem resize_valid {le : Bool} {s : bitfield} (h : valid le s) (heap : Option (Nat → Nat))
    (n : Nat) (t : bitfield) (hr : resize le heap n s = .ok t) : valid le t := by
  cases heap with
  | none =>
    rw [resize_none] at hr
    by_cases h1 : n = size s
    · rw [if_pos h1] at hr
      cases hr
      exact h
    · by_cases h2 : n = 0
      · rw [if_neg h1, if_pos h2] at hr
        cases hr
        exact valid_empty le
      · rw [if_neg h1, if_neg h2] at hr
        cases hr
  | some g =>
    rw [resize_some] at hr
    cases hr
    by_cases h1 : n = size s
    · rw [if_pos h1]
      exact h
    · by_cases h2 : n = 0
      · rw [if_neg h1, if_pos h2]
        exact valid_empty le
      · rw [if_neg h1, if_neg h2]
        exact valid_resized h g n h2

theorem size_resized (le : Bool) (g : Nat → Nat) (n : Nat) (s : bitfield) :
    size (if n = size s then s else if n = 0 then ⟨none⟩
      else clear_trailing_bits le (reallocated g n s)) = n := by
  by_cases h1 : n = size s
  · rw [if_pos h1, h1]
  · by_cases h2 : n = 0
    · rw [if_neg h1, if_pos h2, h2]
      rfl
    · rw [if_neg h1, if_neg h2, size_clear_trailing_bits, size_reallocated]

theorem length_words_of_valid {le : Bool} {s : bitfield} (h : valid le s) :
    (words s).length = (size s + 31) / 32 := h.2.1

/-- A bit of the block after `resize(n)`, `n` positive and different from the old length. -/
theorem get_bit_resized {le : Bool} {s : bitfield} (h : valid le s) (g : Nat → Nat)
    (n i : Nat) (hi : i < n) :
    get_bit le (clear_trailing_bits le (reallocated g n s)) i =
      if i / 32 < num_words s then get_bit le s i
      else (network_to_host le (g (i / 32) % 2 ^ 32)).testBit (31 - i % 32) := by
  rw [get_bit_clear_trailing_bits le _ i (by rw [num_words_reallocated]; omega),
    size_reallocated, decide_eq_true hi, Bool.and_true, get_bit_eq, word_reallocated,
    if_pos (by omega), length_words_of_valid h]
  unfold num_words
  split
  · rfl
  · rfl

/-! ## `resize(bits, val)` -/

theorem resize_val_grow (le : Bool) (g : Nat → Nat) (k : Nat) (v : Bool) (s : bitfield)
    (hk : 0 < k) :
    resize_val le (some g) (size s + k) v s = .ok
      (if v then
        clear_trailing_bits le
          (new_words_filled ((size s + 31) / 32) ((size s + k + 31) / 32) 0xffffffff
            (old_tail_set le (size s)
              (clear_trailing_bits le (reallocated g (size s + k) s))))
      else
        new_words_filled ((size s + 31) / 32) ((size s + k + 31) / 32) 0
          (clear_trailing_bits le (reallocated g (size s + k) s))) := by
  have h1 : ¬ (size s + k = size s) := by omega
  have h2 : ¬ (size s + k = 0) := by omega
  have h3 : ¬ (size s ≥ size s + k) := by omega
  unfold resize_val
  rw [if_neg h1, resize_some, if_neg h1, if_neg h2]
  simp only [size_clear_trailing_bits, size_reallocated, h3, if_false,
    num_words_clear_trailing_bits, num_words_reallocated]
  cases v
  · simp only [Bool.false_eq_true, if_false]
    rfl
  · simp only [if_true]
    rfl

theorem size_new_words_filled (osw nsw fill : Nat) (t : bitfield) :
    size (new_words_filled osw nsw fill t) = size t := by
  unfold new_words_filled
  split
  · exact size_memset _ _ _ _
  · rfl

theorem isSome_new_words_filled (osw nsw fill : Nat) (t : bitfield) :
    (new_words_filled osw nsw fill t).m_buf.isSome = t.m_buf.isSome := by
  unfold new_words_filled
  split
  · exact isSome_memset _ _ _ _
  · rfl

theorem length_words_new_words_filled (osw nsw fill : Nat) (t : bitfield) :
    (words (new_words_filled osw nsw fill t)).length = (words t).length := by
  unfold new_words_filled
  split
  · exact length_words_memset _ _ _ _
  · rfl

theorem word_new_words_filled (osw nsw fill : Nat) (t : bitfield) (q : Nat)
    (hl : (words t).length = nsw) (ho : osw ≤ nsw) :
    word (new_words_filled osw nsw fill t) q =
      if osw ≤ q ∧ q < nsw then fill else word t q := by
  unfold new_words_filled
  by_cases h : osw < nsw
  · rw [if_pos h, word_memset, hl]
    by_cases h2 : osw ≤ q ∧ q < nsw
    · rw [if_pos h2, if_pos ⟨h2.2, h2.1, by omega⟩]
    · rw [if_neg h2, if_neg (fun hh => h2 ⟨hh.2.1, hh.1⟩)]
  · rw [if_neg h, if_neg (by omega)]

theorem size_old_tail_set (le : Bool) (n : Nat) (t : bitfield) :
    size (old_tail_set le n t) = size t := by
  unfold old_tail_set
  split
  · exact size_write _ _ _
  · rfl

theorem isSome_old_tail_set (le : Bool) (n : Nat) (t : bitfield) :
    (old_tail_set le n t).m_buf.isSome = t.m_buf.isSome := by
  unfold old_tail_set
  split
  · exact isSome_write _ _ _
  · rfl

theorem length_words_old_tail_set (le : Bool) (n : Nat) (t : bitfield) :
    (words (old_tail_set le n t)).length = (words t).length := by
  unfold old_tail_set
  split
  · exact length_words_write _ _ _
  · rfl

theorem word_old_tail_set (le : Bool) (n : Nat) (t : bitfield) (q : Nat)
    (hl : (n + 31) / 32 ≤ (words t).length) :
    word (old_tail_set le n t) q =
      if n % 32 ≠ 0 ∧ q = (n + 31) / 32 - 1 then
        word t q ||| host_to_network le (0xffffffff >>> (n % 32))
      else word t q := by
  unfold old_tail_set
  rw [and_31]
  by_cases hc : n % 32 ≠ 0
  · have hw : (n + 31) / 32 ≠ 0 := by omega
    have hcond : (((n + 31) / 32 != 0) && (n % 32 != 0)) = true := by
      simp [hw, hc]
    rw [if_pos hcond, word_write]
    by_cases hq : q = (n + 31) / 32 - 1
    · rw [if_pos ⟨hq, by omega⟩, if_pos ⟨hc, hq⟩, hq]
    · rw [if_neg (fun hh => hq hh.1), if_neg (fun hh => hq hh.2)]
  · have hcond : ¬ ((((n + 31) / 32 != 0) && (n % 32 != 0)) = true) := by
      simp only [ne_eq, not_not] at hc
      simp [hc]
    rw [if_neg hcond, if_neg (fun hh => hc hh.1)]

theorem low_mask_lt (b : Nat) : 0xffffffff >>> b < 2 ^ 32 := by
  rw [Nat.shiftRight_eq_div_pow]
  exact Nat.lt_of_le_of_lt (Nat.div_le_self _ _) (by decide)

theorem trailing_zero {le : Bool} {s : bitfield} (h : valid le s) (i : Nat)
    (h1 : size s ≤ i) (h2 : i / 32 < num_words s) : get_bit le s i = false :=
  h.2.2.2 i (by omega) h1

theorem filled_false_spec {le : Bool} {s : bitfield} (h : valid le s) (g : Nat → Nat)
    (k : Nat) (hk : 0 < k) (t : bitfield)
    (ht : t = new_words_filled ((size s + 31) / 32) ((size s + k + 31) / 32) 0
      (clear_trailing_bits le (reallocated g (size s + k) s))) :
    valid le t ∧ size t = size s + k ∧
      ∀ i, i < size s + k → get_bit le t i = (decide (i < size s) && get_bit le s i) := by
  have hv1 : valid le (clear_trailing_bits le (reallocated g (size s + k) s)) :=
    valid_resized h g (size s + k) (by omega)
  have hsz1 : size (clear_trailing_bits le (reallocated g (size s + k) s)) = size s + k := by
    rw [size_clear_trailing_bits, size_reallocated]
  have hl1 : (words (clear_trailing_bits le (reallocated g (size s + k) s))).length =
      (size s + k + 31) / 32 := by
    rw [length_words_clear_trailing_bits, length_words_reallocated]
  have ho : (size s + 31) / 32 ≤ (size s + k + 31) / 32 := by omega
  have hw : ∀ q, word t q = if (size s + 31) / 32 ≤ q ∧ q < (size s + k + 31) / 32 then 0
      else word (clear_trailing_bits le (reallocated g (size s + k) s)) q := by
    intro q
    rw [ht, word_new_words_filled _ _ _ _ q hl1 ho]
  have hsz : size t = size s + k := by
    rw [ht, size_new_words_filled, hsz1]
  have hnw : num_words t = (size s + k + 31) / 32 := by
    unfold num_words
    rw [hsz]
  have hbit : ∀ i, i < 32 * ((size s + k + 31) / 32) → get_bit le t i =
      if (size s + 31) / 32 ≤ i / 32 then false
      else get_bit le (clear_trailing_bits le (reallocated g (size s + k) s)) i := by
    intro i hi
    rw [get_bit_eq, hw]
    by_cases hc : (size s + 31) / 32 ≤ i / 32
    · rw [if_pos ⟨hc, by omega⟩, if_pos hc, network_to_host_zero, Nat.zero_testBit]
    · rw [if_neg (fun hh => hc hh.1), if_neg hc, ← get_bit_eq]
  refine ⟨?_, hsz, ?_⟩
  · rw [valid_iff]
    refine ⟨?_, ?_, ?_, ?_⟩
    · rw [ht, isSome_new_words_filled, size_new_words_filled]
      exact hv1.1
    · rw [hnw, ht, length_words_new_words_filled, hl1]
    · intro q
      rw [hw]
      split
      · decide
      · exact words_lt hv1 q
    · intro j hj1 hj2
      rw [hnw] at hj1
      rw [hsz] at hj2
      rw [hbit j hj1]
      split
      · rfl
      · exact trailing_zero hv1 j (by omega) (by unfold num_words; omega)
  · intro i hi
    rw [hbit i (by omega)]
    by_cases hc : (size s + 31) / 32 ≤ i / 32
    · rw [if_pos hc, decide_eq_false (by omega), Bool.false_and]
    · rw [if_neg hc, get_bit_resized h g _ i hi, if_pos (by unfold num_words; omega)]
      by_cases hlt : i < size s
      · rw [decide_eq_true hlt, Bool.true_and]
      · rw [decide_eq_false hlt, Bool.false_and]
        exact trailing_zero h i (by omega) (by unfold num_words; omega)

theorem filled_true_spec {le : Bool} {s : bitfield} (h : valid le s) (g : Nat → Nat)
    (k : Nat) (hk : 0 < k) (t : bitfield)
    (ht : t = clear_trailing_bits le
      (new_words_filled ((size s + 31) / 32) ((size s + k + 31) / 32) 0xffffffff
        (old_tail_set le (size s) (clear_trailing_bits le (reallocated g (size s + k) s))))) :
    valid le t ∧ size t = size s + k ∧
      ∀ i, i < size s + k → get_bit le t i = (!decide (i < size s) || get_bit le s i) := by
  have hv1 : valid le (clear_trailing_bits le (reallocated g (size s + k) s)) :=
    valid_resized h g (size s + k) (by omega)
  have hsz1 : size (clear_trailing_bits le (reallocated g (size s + k) s)) = size s + k := by
    rw [size_clear_trailing_bits, size_reallocated]
  have hl1 : (words (clear_trailing_bits le (reallocated g (size s + k) s))).length =
      (size s + k + 31) / 32 := by
    rw [length_words_clear_trailing_bits, length_words_reallocated]
  have ho : (size s + 31) / 32 ≤ (size s + k + 31) / 32 := by omega
  have hl2 : (words (old_tail_set le (size s)
      (clear_trailing_bits le (reallocated g (size s + k) s)))).length =
      (size s + k + 31) / 32 := by
    rw [length_words_old_tail_set, hl1]
  have hw3 : ∀ q, word (new_words_filled ((size s + 31) / 32) ((size s + k + 31) / 32) 0xffffffff
        (old_tail_set le (size s) (clear_trailing_bits le (reallocated g (size s + k) s)))) q =
      if (size s + 31) / 32 ≤ q ∧ q < (size s + k + 31) / 32 then 0xffffffff
      else if size s % 32 ≠ 0 ∧ q = (size s + 31) / 32 - 1 then
        word (clear_trailing_bits le (reallocated g (size s + k) s)) q |||
          host_to_network le (0xffffffff >>> (size s % 32))
      else word (clear_trailing_bits le (reallocated g (size s + k) s)) q := by
    intro q
    rw [word_new_words_filled _ _ _ _ q hl2 ho, word_old_tail_set le _ _ q (by rw [hl1]; exact ho)]
  have hsz3 : size (new_words_filled ((size s + 31) / 32) ((size s + k + 31) / 32) 0xffffffff
        (old_tail_set le (size s) (clear_trailing_bits le (reallocated g (size s + k) s)))) =
      size s + k := by
    rw [size_new_words_filled, size_old_tail_set, hsz1]
  have hsz : size t = size s + k := by
    rw [ht, size_clear_trailing_bits, hsz3]
  refine ⟨?_, hsz, ?_⟩
  · rw [ht]
    apply valid_clear_trailing_bits
    · rw [isSome_new_words_filled, isSome_old_tail_set, hsz3]
      have := hv1.1
      rwa [hsz1] at this
    · rw [length_words_new_words_filled, hl2]
      unfold num_words
      rw [hsz3]
    · intro q
      rw [hw3]
      split
      · decide
      · split
        · exact Nat.or_lt_two_pow (words_lt hv1 q) (host_to_network_lt le _ (low_mask_lt _))
        · exact words_lt hv1 q
  · intro i hi
    rw [ht, get_bit_clear_trailing_bits le _ i (by unfold num_words; rw [hsz3]; omega), hsz3,
      decide_eq_true hi, Bool.and_true, get_bit_eq, hw3]
    by_cases hc : (size s + 31) / 32 ≤ i / 32
    · rw [if_pos ⟨hc, by omega⟩, network_to_host_ones, testBit_ones,
        decide_eq_true (by omega), decide_eq_false (by omega)]
      rfl
    · rw [if_neg (fun hh => hc hh.1)]
      have hold : get_bit le (clear_trailing_bits le (reallocated g (size s + k) s)) i =
          get_bit le s i := by
        rw [get_bit_resized h g _ i hi, if_pos (by unfold num_words; omega)]
      by_cases hc2 : size s % 32 ≠ 0 ∧ i / 32 = (size s + 31) / 32 - 1
      · rw [if_pos hc2, network_to_host_or,
          network_to_host_host_to_network le _ (low_mask_lt _), Nat.testBit_or,
          testBit_low_mask, ← get_bit_eq, hold]
        by_cases hlt : i < size s
        · rw [decide_eq_true hlt, decide_eq_false (by omega)]
          simp
        · rw [decide_eq_false hlt, decide_eq_true (by omega)]
          simp
      · rw [if_neg hc2, ← get_bit_eq, hold, decide_eq_true (by omega)]
        simp

theorem resize_size (le : Bool) (heap : Option (Nat → Nat)) (n : Nat) (s t : bitfield)
    (hr : resize le heap n s = .ok t) : size t = n := by
  cases heap with
  | none =>
    rw [resize_none] at hr
    by_cases h1 : n = size s
    · rw [if_pos h1] at hr
      cases hr
      exact h1.symm
    · by_cases h2 : n = 0
      · rw [if_neg h1, if_pos h2] at hr
        cases hr
        exact h2.symm
      · rw [if_neg h1, if_neg h2] at hr
        cases hr
  | some g =>
    rw [resize_some] at hr
    cases hr
    exact size_resized le g n s

theorem resize_val_shrink (le : Bool) (heap : Option (Nat → Nat)) (n : Nat) (v : Bool)
    (s : bitfield) (hn : n ≤ size s) : resize_val le heap n v s = resize le heap n s := by
  unfold resize_val
  by_cases h1 : n = size s
  · rw [if_pos h1]
    unfold resize
    rw [if_pos h1]
  · rw [if_neg h1]
    cases hres : resize le heap n s with
    | error e => rfl
    | ok s1 =>
      have hs := resize_size le heap n s s1 hres
      simp only [hs, ge_iff_le, hn, if_true]

theorem resize_val_valid {le : Bool} {s : bitfield} (h : valid le s)
    (heap : Option (Nat → Nat)) (n : Nat) (v : Bool) (t : bitfield)
    (hr : resize_val le heap n v s = .ok t) : valid le t := by
  by_cases hgrow : size s < n
  · cases heap with
    | none =>
      unfold resize_val at hr
      rw [if_neg (by omega), resize_none, if_neg (by omega), if_neg (by omega)] at hr
      cases hr
    | some g =>
      obtain ⟨k, hk⟩ := Nat.exists_eq_add_of_lt hgrow
      have hn : n = size s + (k + 1) := by omega
      rw [hn, resize_val_grow le g (k + 1) v s (Nat.succ_pos k)] at hr
      cases v
      · simp only [Bool.false_eq_true, if_false] at hr
        cases hr
        exact (filled_false_spec h g (k + 1) (Nat.succ_pos k) _ rfl).1
      · simp only [if_true] at hr
        cases hr
        exact (filled_true_spec h g (k + 1) (Nat.succ_pos k) _ rfl).1
  · rw [resize_val_shrink le heap n v s (by omega)] at hr
    exact resize_valid h heap n t hr

theorem resize_val_some_ok (le : Bool) (g : Nat → Nat) (n : Nat) (v : Bool) (s : bitfield) :
    ∃ t, resize_val le (some g) n v s = .ok t := by
  by_cases hgrow : size s < n
  · obtain ⟨k, hk⟩ := Nat.exists_eq_add_of_lt hgrow
    have hn : n = size s + (k + 1) := by omega
    rw [hn, resize_val_grow le g (k + 1) v s (Nat.succ_pos k)]
    exact ⟨_, rfl⟩
  · rw [resize_val_shrink le (some g) n v s (by omega), resize_some]
    exact ⟨_, rfl⟩

theorem resize_keeps_bits {le : Bool} {s : bitfield} (h : valid le s)
    (heap : Option (Nat → Nat)) (n : Nat) (t : bitfield) (hr : resize le heap n s = .ok t)
    (i : Nat) (hi : i < min (size s) n) : get_bit le t i = get_bit le s i := by
  have hi1 : i < size s := Nat.lt_of_lt_of_le hi (Nat.min_le_left _ _)
  have hi2 : i < n := Nat.lt_of_lt_of_le hi (Nat.min_le_right _ _)
  by_cases h1 : n = size s
  · cases heap with
    | none =>
      rw [resize_none, if_pos h1] at hr
      cases hr
      rfl
    | some g =>
      rw [resize_some, if_pos h1] at hr
      cases hr
      rfl
  · have h2 : n ≠ 0 := by omega
    cases heap with
    | none =>
      rw [resize_none, if_neg h1, if_neg h2] at hr
      cases hr
    | some g =>
      rw [resize_some, if_neg h1, if_neg h2] at hr
      cases hr
      rw [get_bit_resized h g n i hi2, if_pos (by unfold num_words; omega)]

/-! ## Further facts on `resize`, `count` and the empty bitfield -/

theorem resize_same (le : Bool) (heap : Option (Nat → Nat)) (s : bitfield) :
    resize le heap (size s) s = .ok s := by
  unfold resize
  rw [if_pos rfl]

theorem resize_val_same (le : Bool) (heap : Option (Nat → Nat)) (v : Bool) (s : bitfield) :
    resize_val le heap (size s) v s = .ok s := by
  unfold resize_val
  rw [if_pos rfl]

theorem resize_val_size {le : Bool} {s : bitfield} (h : valid le s)
    (heap : Option (Nat → Nat)) (n : Nat) (v : Bool) (t : bitfield)
    (hr : resize_val le heap n v s = .ok t) : size t = n := by
  by_cases hgrow : size s < n
  · cases heap with
    | none =>
      unfold resize_val at hr
      rw [if_neg (by omega), resize_none, if_neg (by omega), if_neg (by omega)] at hr
      cases hr
    | some g =>
      obtain ⟨k, hk⟩ := Nat.exists_eq_add_of_lt hgrow
      have hn : n = size s + (k + 1) := by omega
      rw [hn, resize_val_grow le g (k + 1) v s (Nat.succ_pos k)] at hr
      cases v
      · simp only [Bool.false_eq_true, if_false] at hr
        cases hr
        rw [hn]
        exact (filled_false_spec h g (k + 1) (Nat.succ_pos k) _ rfl).2.1
      · simp only [if_true] at hr
        cases hr
        rw [hn]
        exact (filled_true_spec h g (k + 1) (Nat.succ_pos k) _ rfl).2.1
  · rw [resize_val_shrink le heap n v s (by omega)] at hr
    exact resize_size le heap n s t hr

theorem count_le_size (mmx le : Bool) (s : bitfield) (h : valid le s) :
    count mmx s ≤ size s := by
  rw [count_eq_sum mmx le s h]
  exact sum_toNat_le _ _

theorem count_flag_irrelevant (s : bitfield) (h : ∀ w ∈ words s, w < 2 ^ 32) :
    count true s = count false s := by
  have hw : ∀ q, swar (word s q) = builtin_popcount (word s q) := fun q =>
    swar_eq _ ((forall_mem_iff_getD (words s)).mp h q)
  unfold count
  simp only [if_true, Bool.false_eq_true, if_false, hw]

theorem find_last_clear_empty (mmx le : Bool) (wide : Nat) :
    find_last_clear mmx le wide ⟨none⟩ = none := rfl

/-! ## Zero words, and the bit scans being defined -/

theorem all_words_zero_iff (le : Bool) (s : bitfield) (h : valid le s) :
    (∀ q, q < num_words s → word s q = 0) ↔ ∀ i, i < size s → get_bit le s i = false := by
  constructor
  · intro hw i hi
    exact get_bit_of_word_zero le s i (hw (i / 32) (by unfold num_words; omega))
  · intro hb q hq
    apply (network_to_host_eq_zero le _ (words_lt h q)).mp
    apply eq_zero_of_low_bits (network_to_host_lt le _ (words_lt h q))
    intro j hj
    have e := get_bit_block le s q (31 - j) (by omega)
    rw [show 31 - (31 - j) = j by omega] at e
    rw [← e]
    by_cases hlt : 32 * q + (31 - j) < size s
    · exact hb _ hlt
    · exact trailing_zero h _ (by omega) (by omega)

theorem count_eq_zero_iff (mmx le : Bool) (s : bitfield) (h : valid le s) :
    count mmx s = 0 ↔ ∀ i, i < size s → get_bit le s i = false := by
  rw [count_eq_sum mmx le s h, Finset.sum_eq_zero_iff]
  constructor
  · intro hz i hi
    have := hz i (Finset.mem_range.mpr hi)
    cases hb : get_bit le s i
    · rfl
    · rw [hb] at this
      exact absurd this (by decide)
  · intro hz i hi
    rw [hz i (Finset.mem_range.mp hi)]
    rfl

theorem find_first_set_cases (mmx le : Bool) (s : bitfield) (h : valid le s) :
    (find_first_set mmx le s = some (-1) ∧ ∀ q, q < num_words s → word s q = 0) ∨
    (∃ r : Int, find_first_set mmx le s = some r ∧ 0 ≤ r ∧
      ∃ q, q < num_words s ∧ word s q ≠ 0) := by
  cases mmx
  · unfold find_first_set
    simp only [Bool.false_eq_true, if_false]
    cases hf : for_up (fun i =>
        if (word s i == 0) = true then none
        else some (some ((i : Int) * 32 +
          (debruijn_position (network_to_host le (word s i)) : Int)))) 0 (num_words s) with
    | none =>
      left
      refine ⟨rfl, ?_⟩
      intro q hq
      rw [for_up_none] at hf
      have := hf q hq
      rw [Nat.zero_add] at this
      by_contra hw
      simp [hw] at this
    | some r =>
      right
      rw [for_up_some] at hf
      obtain ⟨q, hq, hr, -⟩ := hf
      rw [Nat.zero_add] at hr
      by_cases hw : word s q = 0
      · simp [hw] at hr
      · simp only [beq_iff_eq, hw, if_false, Option.some.injEq] at hr
        subst hr
        exact ⟨_, rfl, by omega, q, hq, hw⟩
  · rcases find_first_set_hw_spec le s h with ⟨hr, hz⟩ | ⟨p, hr, hp, hb, -⟩
    · left
      exact ⟨hr, (all_words_zero_iff le s h).mpr hz⟩
    · right
      refine ⟨p, hr, by omega, p / 32, by unfold num_words; omega, ?_⟩
      intro hw
      rw [get_bit_of_word_zero le s p hw] at hb
      exact absurd hb (by decide)

theorem shl32_lt (wide x t : Nat) : shl32 wide x t < 2 ^ 32 := by
  unfold shl32
  split <;> exact Nat.mod_lt _ (by decide)

theorem find_last_clear_hw_defined (le : Bool) (wide : Nat) (s : bitfield) (h : valid le s)
    (hpos : 0 < size s) : ∃ r, find_last_clear true le wide s = some r := by
  have hlt : network_to_host le (word s (num_words s - 1)) ^^^
      shl32 wide 0xffffffff (32 - (size s &&& 31)) < 2 ^ 32 :=
    Nat.xor_lt_two_pow (network_to_host_lt le _ (words_lt h _)) (shl32_lt _ _ _)
  unfold find_last_clear
  simp only [read_last h hpos, if_true]
  by_cases hl0 : network_to_host le (word s (num_words s - 1)) ^^^
      shl32 wide 0xffffffff (32 - (size s &&& 31)) = 0
  · simp only [hl0, bne_self_eq_false, Bool.false_eq_true, if_false]
    cases hf : for_down (fun i =>
        if (word s i == 0xffffffff) = true then none
        else some (Option.map (fun (z : Nat) => (i : Int) * 32 + 31 - (z : Int))
          (builtin_ctz (network_to_host le (word s i) ^^^ 0xffffffff)))) (num_words s - 1) with
    | none => exact ⟨_, rfl⟩
    | some r =>
      rw [for_down_some] at hf
      obtain ⟨q, -, hr, -⟩ := hf
      by_cases hw : word s q = 0xffffffff
      · simp [hw] at hr
      · have hwq := words_lt h q
        have hn : network_to_host le (word s q) ≠ 0xffffffff := fun e =>
          hw ((network_to_host_eq_ones le _ hwq).mp e)
        obtain ⟨z, hz, -⟩ := builtin_ctz_spec _
          (xor_ones_lt _ (network_to_host_lt le _ hwq))
          (xor_ones_ne_zero _ (network_to_host_lt le _ hwq) hn)
        simp only [beq_iff_eq, hw, if_false, hz, Option.map_some', Option.some.injEq] at hr
        subst hr
        exact ⟨_, rfl⟩
  · obtain ⟨z, hz, -⟩ := builtin_ctz_spec _ hlt hl0
    have hne : (network_to_host le (word s (num_words s - 1)) ^^^
      shl32 wide 0xffffffff (32 - (size s &&& 31)) != 0) = true := by
      simpa using hl0
    simp only [hne, if_true, hz, Option.map_some']
    exact ⟨_, rfl⟩

theorem builtin_clz_defined (x : Nat) (hx : x < 2 ^ 32) (h0 : x ≠ 0) :
    (builtin_clz x).isSome = true := by
  obtain ⟨z, hz, -⟩ := builtin_clz_spec x hx h0
  rw [hz]
  rfl

theorem builtin_ctz_defined (x : Nat) (hx : x < 2 ^ 32) (h0 : x ≠ 0) :
    (builtin_ctz x).isSome = true := by
  obtain ⟨z, hz, -⟩ := builtin_ctz_spec x hx h0
  rw [hz]
  rfl

/-! ## States are determined by their bits -/

theorem word_eq_of_bits {le : Bool} {s t : bitfield} (q : Nat) (hs : word s q < 2 ^ 32)
    (ht : word t q < 2 ^ 32)
    (hb : ∀ r, r < 32 → get_bit le s (32 * q + r) = get_bit le t (32 * q + r)) :
    word s q = word t q := by
  apply network_to_host_inj le _ _ hs ht
  apply Nat.eq_of_testBit_eq
  intro j
  by_cases hj : j < 32
  · have e := hb (31 - j) (by omega)
    rw [get_bit_block le s q (31 - j) (by omega), get_bit_block le t q (31 - j) (by omega),
      show 31 - (31 - j) = j by omega] at e
    exact e
  · rw [testBit_ge_of_lt (network_to_host_lt le _ hs) (by omega),
      testBit_ge_of_lt (network_to_host_lt le _ ht) (by omega)]

/-- A valid state is determined by its length and its bits below the length. -/
theorem eq_of_bits {le : Bool} {s t : bitfield} (hs : valid le s) (ht : valid le t)
    (hsz : size s = size t) (hb : ∀ i, i < size s → get_bit le s i = get_bit le t i) :
    s = t := by
  have hnw : num_words s = num_words t := by
    unfold num_words
    rw [hsz]
  have hw : ∀ q, word s q = word t q := by
    intro q
    apply word_eq_of_bits q (words_lt hs q) (words_lt ht q)
    intro r hr
    by_cases hlt : 32 * q + r < size s
    · exact hb _ hlt
    · by_cases hq : q < num_words s
      · rw [trailing_zero hs _ (by omega) (by omega),
          trailing_zero ht _ (by omega) (by omega)]
      · have e1 : word s q = 0 := by
          unfold word
          exact List.getD_eq_default _ _ (by rw [hs.2.1]; omega)
        have e2 : word t q = 0 := by
          unfold word
          exact List.getD_eq_default _ _ (by rw [ht.2.1]; omega)
        rw [get_bit_block le s q r hr, get_bit_block le t q r hr, e1, e2]
  have hwords : words s = words t := by
    apply List.ext_getElem
    · rw [hs.2.1, ht.2.1, hnw]
    · intro q h1 h2
      have := hw q
      unfold word at this
      rwa [List.getD_eq_getElem _ _ h1, List.getD_eq_getElem _ _ h2] at this
  rcases s with ⟨_ | bs⟩
  · rcases t with ⟨_ | bt⟩
    · rfl
    · have := ht.1.mp rfl
      rw [← hsz] at this
      exact absurd this (by decide)
  · rcases t with ⟨_ | bt⟩
    · have := hs.1.mp rfl
      rw [hsz] at this
      exact absurd this (by decide)
    · rcases bs with ⟨n1, d1⟩
      rcases bt with ⟨n2, d2⟩
      have e1 : n1 = n2 := hsz
      have e2 : d1 = d2 := hwords
      rw [e1, e2]

theorem resize_round_trip {le : Bool} {s t : bitfield} (h : valid le s) (ht : valid le t)
    (hsz : size s ≤ size t) (hb : ∀ i, i < size s → get_bit le t i = get_bit le s i)
    (g : Nat → Nat) : resize le (some g) (size s) t = .ok s := by
  obtain ⟨u, hu⟩ : ∃ u, resize le (some g) (size s) t = .ok u := ⟨_, resize_some le g _ t⟩
  have hvu := resize_valid ht (some g) (size s) u hu
  have hsu := resize_size le (some g) (size s) t u hu
  have hbu : ∀ i, i < size s → get_bit le u i = get_bit le s i := by
    intro i hi
    rw [resize_keeps_bits ht (some g) (size s) u hu i (by rw [Nat.min_eq_right hsz]; exact hi)]
    exact hb i hi
  rw [hu, eq_of_bits hvu h hsu (fun i hi => hbu i (by rw [hsu] at hi; exact hi))]

theorem resize_val_grow_keeps_bits {le : Bool} {s : bitfield} (h : valid le s)
    (g : Nat → Nat) (k : Nat) (v : Bool) (t : bitfield)
    (hr : resize_val le (some g) (size s + k) v s = .ok t) (i : Nat) (hi : i < size s) :
    get_bit le t i = get_bit le s i := by
  cases k with
  | zero =>
    rw [Nat.add_zero, resize_val_same] at hr
    cases hr
    rfl
  | succ k =>
    rw [resize_val_grow le g (k + 1) v s (Nat.succ_pos k)] at hr
    cases v
    · simp only [Bool.false_eq_true, if_false] at hr
      cases hr
      rw [(filled_false_spec h g (k + 1) (Nat.succ_pos k) _ rfl).2.2 i (by omega),
        decide_eq_true hi, Bool.true_and]
    · simp only [if_true] at hr
      cases hr
      rw [(filled_true_spec h g (k + 1) (Nat.succ_pos k) _ rfl).2.2 i (by omega),
        decide_eq_true hi]
      rfl

/-! ## Allocation failure -/

theorem resize_effect_fail (le : Bool) (n : Nat) (s : bitfield) (h1 : n ≠ size s)
    (h2 : n ≠ 0) : resize_effect le none n s = (s, some error.bad_alloc) := by
  unfold resize_effect
  rw [if_neg h1]
  simp only [if_neg h2]
  rcases s with ⟨_ | b⟩ <;> rfl

theorem resize_effect_some (le : Bool) (g : Nat → Nat) (n : Nat) (s : bitfield) :
    (resize_effect le (some g) n s).2 = none := by
  unfold resize_effect
  by_cases h1 : n = size s
  · rw [if_pos h1]
  · rw [if_neg h1]
    by_cases h2 : n = 0
    · simp only [if_pos h2]
      rcases s with ⟨_ | b⟩ <;> rfl
    · simp only [if_neg h2]
      rcases s with ⟨_ | b⟩ <;> rfl

theorem resize_effect_no_call (le : Bool) (heap : Option (Nat → Nat)) (n : Nat) (s : bitfield)
    (h : n = size s ∨ n = 0) : (resize_effect le heap n s).2 = none := by
  unfold resize_effect
  by_cases h1 : n = size s
  · rw [if_pos h1]
  · rw [if_neg h1]
    have h2 : n = 0 := h.resolve_left h1
    simp only [if_pos h2]
    rcases s with ⟨_ | b⟩ <;> rfl

/-- The transition and the result of `resize(bits)` agree. -/
theorem resize_effect_agrees (le : Bool) (heap : Option (Nat → Nat)) (n : Nat)
    (s : bitfield) :
    resize le heap n s =
      match resize_effect le heap n s with
      | (t, none) => .ok t
      | (_, some e) => .error e := by
  unfold resize resize_effect
  by_cases h1 : n = size s
  · simp only [if_pos h1]
  · simp only [if_neg h1]
    by_cases h2 : n = 0
    · simp only [if_pos h2]
      rcases s with ⟨_ | b⟩ <;> rfl
    · simp only [if_neg h2]
      rcases s with ⟨_ | b⟩ <;> cases heap <;> rfl

/-- The transition and the result of `resize(bits, val)` agree. -/
theorem resize_val_effect_agrees (le : Bool) (heap : Option (Nat → Nat)) (n : Nat) (v : Bool)
    (s : bitfield) :
    resize_val le heap n v s =
      match resize_val_effect le heap n v s with
      | (t, none) => .ok t
      | (_, some e) => .error e := by
  unfold resize_val resize_val_effect
  by_cases h1 : n = size s
  · simp only [if_pos h1]
  · simp only [if_neg h1]
    rw [resize_effect_agrees]
    rcases hre : resize_effect le heap n s with ⟨t, _ | e⟩
    · simp only []
      by_cases h3 : size s ≥ size t
      · simp only [if_pos h3]
      · simp only [if_neg h3]
        cases v <;> rfl
    · rfl

theorem resize_val_effect_fail (le : Bool) (n : Nat) (v : Bool) (s : bitfield)
    (h1 : n ≠ size s) (h2 : n ≠ 0) :
    resize_val_effect le none n v s = (s, some error.bad_alloc) := by
  unfold resize_val_effect
  rw [if_neg h1]
  simp only [resize_effect_fail le n s h1 h2]

theorem resize_effect_error (le : Bool) (heap : Option (Nat → Nat)) (n : Nat)
    (s t : bitfield) (e : error) (hr : resize_effect le heap n s = (t, some e)) :
    heap = none ∧ e = error.bad_alloc ∧ t = s ∧ n ≠ size s ∧ n ≠ 0 := by
  cases heap with
  | some g =>
    have := resize_effect_some le g n s
    rw [hr] at this
    exact absurd this (by simp)
  | none =>
    by_cases h : n = size s ∨ n = 0
    · have := resize_effect_no_call le none n s h
      rw [hr] at this
      exact absurd this (by simp)
    · have h1 : n ≠ size s := fun e1 => h (Or.inl e1)
      have h2 : n ≠ 0 := fun e2 => h (Or.inr e2)
      rw [resize_effect_fail le n s h1 h2] at hr
      cases hr
      exact ⟨rfl, rfl, rfl, h1, h2⟩

theorem resize_val_effect_error (le : Bool) (heap : Option (Nat → Nat)) (n : Nat) (v : Bool)
    (s t : bitfield) (e : error) (hr : resize_val_effect le heap n v s = (t, some e)) :
    heap = none ∧ e = error.bad_alloc ∧ t = s ∧ n ≠ size s ∧ n ≠ 0 := by
  unfold resize_val_effect at hr
  by_cases h1 : n = size s
  · rw [if_pos h1] at hr
    cases hr
  · rw [if_neg h1] at hr
    rcases hre : resize_effect le heap n s with ⟨u, _ | e0⟩
    · rw [hre] at hr
      simp only [] at hr
      by_cases h3 : size s ≥ size u
      · rw [if_pos h3] at hr
        cases hr
      · rw [if_neg h3] at hr
        cases v
        · simp only [Bool.false_eq_true, if_false] at hr
          cases hr
        · simp only [if_true] at hr
          cases hr
    · rw [hre] at hr
      simp only [] at hr
      cases hr
      exact resize_effect_error le heap n s t e hre

/-! ## `find_last_clear` on the hardware path, no partial final word -/

theorem get_bit_of_word_ones (le : Bool) (s : bitfield) (i : Nat)
    (h : word s (i / 32) = 0xffffffff) : get_bit le s i = true := by
  rw [get_bit_eq, h, network_to_host_ones, testBit_ones]
  exact decide_eq_true (by omega)

theorem scan_full_words (le : Bool) (s : bitfield) (h : valid le s) (n : Nat) :
    (for_down (fun i =>
        if (word s i == 0xffffffff) = true then none
        else some (Option.map (fun (z : Nat) => (i : Int) * 32 + 31 - (z : Int))
          (builtin_ctz (network_to_host le (word s i) ^^^ 0xffffffff)))) n = none ∧
      ∀ i, i < 32 * n → get_bit le s i = true) ∨
    (∃ p : Nat, for_down (fun i =>
        if (word s i == 0xffffffff) = true then none
        else some (Option.map (fun (z : Nat) => (i : Int) * 32 + 31 - (z : Int))
          (builtin_ctz (network_to_host le (word s i) ^^^ 0xffffffff)))) n =
        some (some (p : Int)) ∧
      p < 32 * n ∧ get_bit le s p = false ∧
      ∀ i, p < i → i < 32 * n → get_bit le s i = true) := by
  cases hf : for_down (fun i =>
      if (word s i == 0xffffffff) = true then none
      else some (Option.map (fun (z : Nat) => (i : Int) * 32 + 31 - (z : Int))
        (builtin_ctz (network_to_host le (word s i) ^^^ 0xffffffff)))) n with
  | none =>
    left
    refine ⟨rfl, ?_⟩
    intro i hi
    rw [for_down_none] at hf
    have := hf (i / 32) (by omega)
    apply get_bit_of_word_ones
    by_contra hw
    simp [hw] at this
  | some r =>
    right
    rw [for_down_some] at hf
    obtain ⟨q, hq, hr, hlt⟩ := hf
    by_cases hw : word s q = 0xffffffff
    · simp [hw] at hr
    · have hwq := words_lt h q
      have hn : network_to_host le (word s q) ≠ 0xffffffff := fun e =>
        hw ((network_to_host_eq_ones le _ hwq).mp e)
      obtain ⟨z, hz, hz32, hzt, hzl⟩ := builtin_ctz_spec _
        (xor_ones_lt _ (network_to_host_lt le _ hwq))
        (xor_ones_ne_zero _ (network_to_host_lt le _ hwq) hn)
      simp only [beq_iff_eq, hw, if_false, hz, Option.map_some', Option.some.injEq] at hr
      subst hr
      refine ⟨32 * q + (31 - z), ?_, by omega, ?_, ?_⟩
      · simp only [Nat.cast_add, Nat.cast_mul, Nat.cast_ofNat]
        congr 2
        omega
      · rw [get_bit_block le s q (31 - z) (by omega), show 31 - (31 - z) = z by omega]
        rw [xor_ones_testBit] at hzt
        simp only [hz32, decide_True] at hzt
        cases hb : (network_to_host le (word s q)).testBit z
        · rfl
        · rw [hb] at hzt; exact absurd hzt (by decide)
      · intro i hi1 hi2
        by_cases h1 : i / 32 = q
        · have := hzl (31 - i % 32) (by omega)
          rw [xor_ones_testBit] at this
          have e : 31 - i % 32 < 32 := by omega
          simp only [e, decide_True] at this
          rw [get_bit_eq, h1]
          cases hb : (network_to_host le (word s q)).testBit (31 - i % 32)
          · rw [hb] at this; exact absurd this (by decide)
          · rfl
        · have := hlt (i / 32) (by omega) (by omega)
          apply get_bit_of_word_ones
          by_contra hw2
          simp [hw2] at this

/-- The hardware path at a length that is a positive multiple of 32, on a platform whose
shift by the full width leaves the operand as it is. -/
theorem find_last_clear_hw_spec_full (le : Bool) (wide : Nat) (s : bitfield) (h : valid le s)
    (hpos : 0 < size s) (hrest : size s % 32 = 0) (hwide : wide % 2 ^ 32 = 0xffffffff) :
    (find_last_clear true le wide s = some (-1) ∧ ∀ i, i < size s → get_bit le s i = true) ∨
    (∃ p : Nat, find_last_clear true le wide s = some (p : Int) ∧ p < size s ∧
      get_bit le s p = false ∧ ∀ i, p < i → i < size s → get_bit le s i = true) := by
  have ha : 32 * (num_words s - 1) + 32 = size s ∧ 0 < num_words s := by
    unfold num_words; omega
  have hsh : shl32 wide 0xffffffff (32 - (size s &&& 31)) = 0xffffffff := by
    unfold shl32
    rw [and_31, hrest, if_neg (by omega), hwide]
  have hwl := words_lt h (num_words s - 1)
  have hnl := network_to_host_lt le _ hwl
  unfold find_last_clear
  simp only [read_last h hpos, hsh, if_true]
  by_cases hl0 : network_to_host le (word s (num_words s - 1)) ^^^ 0xffffffff = 0
  · have hones : word s (num_words s - 1) = 0xffffffff := by
      by_contra hw
      exact xor_ones_ne_zero _ hnl
        (fun e => hw ((network_to_host_eq_ones le _ hwl).mp e)) hl0
    have hfin : ∀ i, i / 32 = num_words s - 1 → get_bit le s i = true := by
      intro i hi
      apply get_bit_of_word_ones
      rw [hi]
      exact hones
    simp only [hl0, bne_self_eq_false, Bool.false_eq_true, if_false]
    rcases scan_full_words le s h (num_words s - 1) with ⟨hf, hall⟩ | ⟨p, hf, hp, hb, hl⟩
    · left
      rw [hf]
      refine ⟨rfl, ?_⟩
      intro i hi
      by_cases hq : i / 32 < num_words s - 1
      · exact hall i (by omega)
      · exact hfin i (by omega)
    · right
      rw [hf]
      refine ⟨p, rfl, by omega, hb, ?_⟩
      intro i hi1 hi2
      by_cases hq : i / 32 < num_words s - 1
      · exact hl i hi1 (by omega)
      · exact hfin i (by omega)
  · right
    obtain ⟨z, hz, hz32, hzt, hzl⟩ := builtin_ctz_spec _ (xor_ones_lt _ hnl) hl0
    have hne : (network_to_host le (word s (num_words s - 1)) ^^^ 0xffffffff != 0) = true := by
      simpa using hl0
    simp only [hne, if_true, hz, Option.map_some']
    refine ⟨32 * (num_words s - 1) + (31 - z), ?_, by omega, ?_, ?_⟩
    · congr 1
      omega
    · rw [get_bit_block le s _ (31 - z) (by omega), show 31 - (31 - z) = z by omega]
      rw [xor_ones_testBit] at hzt
      simp only [hz32, decide_True] at hzt
      cases hb : (network_to_host le (word s (num_words s - 1))).testBit z
      · rfl
      · rw [hb] at hzt; exact absurd hzt (by decide)
    · intro i hi1 hi2
      have hq : i / 32 = num_words s - 1 := by omega
      have := hzl (31 - i % 32) (by omega)
      rw [xor_ones_testBit] at this
      have e : 31 - i % 32 < 32 := by omega
      simp only [e, decide_True] at this
      rw [get_bit_eq, hq]
      cases hb : (network_to_host le (word s (num_words s - 1))).testBit (31 - i % 32)
      · rw [hb] at this; exact absurd this (by decide)
      · rfl

/-! ## The claims -/

/-- C1: for every valid bitfield state and either value of the capability flag, `count()` is
the number of indices `i` in `[0, length)` whose bit `i` is set. -/
theorem count_is_number_of_set_bits (mmx_support little_endian : Bool) (s : bitfield)
    (h : valid little_endian s) :
    count mmx_support s =
      ((List.range (size s)).filter (fun i => get_bit little_endian s i)).length :=
  count_eq mmx_support little_endian s h

/-- The previous theorem on the portable path, at forty bits with only bit 35 set. -/
theorem count_is_number_of_set_bits_witness :
    valid true only_bit_35 ∧
    count false only_bit_35 =
      ((List.range (size only_bit_35)).filter (fun i => get_bit true only_bit_35 i)).length :=
  ⟨by decide, count_is_number_of_set_bits false true only_bit_35 (by decide)⟩

/-- C2: on the hardware path, for every valid bitfield state, `find_first_set()` returns `-1`
when no bit in `[0, length)` is set, and returns the least index whose bit is set
otherwise. -/
theorem find_first_set_hardware (little_endian : Bool) (s : bitfield)
    (h : valid little_endian s) :
    ((∀ i, i < size s → get_bit little_endian s i = false) →
      find_first_set true little_endian s = some (-1)) ∧
    (∀ p, p < size s → get_bit little_endian s p = true →
      (∀ i, i < p → get_bit little_endian s i = false) →
      find_first_set true little_endian s = some (p : Int)) := by
  rcases find_first_set_hw_spec little_endian s h with ⟨hr, hz⟩ | ⟨p0, hr, hp0, hb0, hl0⟩
  · refine ⟨fun _ => hr, ?_⟩
    intro p hp hb _
    rw [hz p hp] at hb
    exact absurd hb (by decide)
  · refine ⟨?_, ?_⟩
    · intro hz
      rw [hz p0 hp0] at hb0
      exact absurd hb0 (by decide)
    · intro p hp hb hl
      have e : p0 = p := by
        rcases Nat.lt_trichotomy p0 p with h1 | h1 | h1
        · rw [hl p0 h1] at hb0
          exact absurd hb0 (by decide)
        · exact h1
        · rw [hl0 p h1] at hb
          exact absurd hb (by decide)
      rw [hr, e]

/-- The previous theorem at forty bits with only bit 35 set: the result is 35. -/
theorem find_first_set_hardware_witness :
    valid true only_bit_35 ∧ find_first_set true true only_bit_35 = some 35 :=
  ⟨by decide,
    (find_first_set_hardware true only_bit_35 (by decide)).2 35 (by decide) (by decide)
      (by decide)⟩

/-- C3, evaluated at the failing input: forty bits with only bit 35 set. The portable path
looks up the position of the most significant 1-bit counted from the least significant end
(28 in word 1) and returns `1 * 32 + 28 = 60`, where the hardware path returns 35. -/
theorem find_first_set_portable_at_35 :
    valid true only_bit_35 ∧ get_bit true only_bit_35 35 = true ∧
    find_first_set false true only_bit_35 = some 60 ∧
    find_first_set true true only_bit_35 = some 35 := by
  decide

/-- C4: on the hardware path, for every valid bitfield state whose length is not a multiple
of 32, `find_last_clear()` returns `-1` when every bit in `[0, length)` is set and the
greatest index in `[0, length)` whose bit is clear otherwise; whatever it returns is below
the length, so the padding of the final word is never reported. -/
theorem find_last_clear_hardware_partial_word (little_endian : Bool) (wide : Nat) (s : bitfield)
    (h : valid little_endian s) (hrest : size s % 32 ≠ 0) :
    ((∀ i, i < size s → get_bit little_endian s i = true) →
      find_last_clear true little_endian wide s = some (-1)) ∧
    (∀ p, p < size s → get_bit little_endian s p = false →
      (∀ i, p < i → i < size s → get_bit little_endian s i = true) →
      find_last_clear true little_endian wide s = some (p : Int)) ∧
    (∃ r : Int, find_last_clear true little_endian wide s = some r ∧ r < (size s : Int)) := by
  rcases find_last_clear_hw_spec little_endian wide s h hrest with
    ⟨hr, hz⟩ | ⟨p0, hr, hp0, hb0, hl0⟩
  · refine ⟨fun _ => hr, ?_, ⟨-1, hr, by omega⟩⟩
    intro p hp hb _
    rw [hz p hp] at hb
    exact absurd hb (by decide)
  · refine ⟨?_, ?_, ⟨p0, hr, by omega⟩⟩
    · intro hz
      rw [hz p0 hp0] at hb0
      exact absurd hb0 (by decide)
    · intro p hp hb hl
      have e : p0 = p := by
        rcases Nat.lt_trichotomy p0 p with h1 | h1 | h1
        · rw [hl0 p h1 hp] at hb
          exact absurd hb (by decide)
        · exact h1
        · rw [hl p0 h1 hp0] at hb0
          exact absurd hb0 (by decide)
      rw [hr, e]

/-- The previous theorem at forty bits with only bit 35 set: the result is 39. -/
theorem find_last_clear_hardware_partial_word_witness :
    valid true only_bit_35 ∧ size only_bit_35 % 32 ≠ 0 ∧
    find_last_clear true true 0 only_bit_35 = some 39 :=
  ⟨by decide, by decide,
    (find_last_clear_hardware_partial_word true 0 only_bit_35 (by decide) (by decide)).2.1 39
      (by decide) (by decide)
      (fun i h1 h2 => absurd h2 (by rw [show size only_bit_35 = 40 by decide]; omega))⟩

/-- C5, evaluated at the failing input: forty bits, all set except bit 35. The portable loop
continues while the low bit of the complemented word is 1 and returns at its first 0-bit,
here at `k = 0`: the result is `1 * 32 + 31 - 0 = 63`, where the hardware path returns 35. -/
theorem find_last_clear_portable_at_35 :
    valid true all_but_bit_35 ∧ get_bit true all_but_bit_35 35 = false ∧
    find_last_clear false true 0 all_but_bit_35 = some 63 ∧
    find_last_clear true true 0 all_but_bit_35 = some 35 := by
  decide

/-- C6: for every valid bitfield state, `all_set()` returns true if and only if `count()`
equals the length. -/
theorem all_set_iff_count_eq_size (mmx_support little_endian : Bool) (s : bitfield)
    (h : valid little_endian s) :
    all_set little_endian s = true ↔ count mmx_support s = size s := by
  rw [all_set_iff little_endian s h, count_eq_size_iff mmx_support little_endian s h]

/-- The previous theorem at forty bits, all set except bit 35. -/
theorem all_set_iff_count_eq_size_witness :
    valid true all_but_bit_35 ∧
    (all_set true all_but_bit_35 = true ↔ count false all_but_bit_35 = size all_but_bit_35) :=
  ⟨by decide, all_set_iff_count_eq_size false true all_but_bit_35 (by decide)⟩

/-- C7: for every valid state of `n` bits, every `k > 0` and every fill value `v`,
`resize(n + k, v)` returns, the length is then `n + k`, every bit in `[n, n + k)` equals `v`
and every bit in `[0, n)` has its previous value. -/
theorem resize_val_grows_with_fill (little_endian : Bool) (g : Nat → Nat) (k : Nat) (v : Bool)
    (s : bitfield) (h : valid little_endian s) (hk : 0 < k) :
    ∃ t, resize_val little_endian (some g) (size s + k) v s = .ok t ∧
      size t = size s + k ∧
      (∀ i, size s ≤ i → i < size s + k → get_bit little_endian t i = v) ∧
      (∀ i, i < size s → get_bit little_endian t i = get_bit little_endian s i) := by
  rw [resize_val_grow little_endian g k v s hk]
  refine ⟨_, rfl, ?_⟩
  cases v
  · obtain ⟨_, hs, hb⟩ := filled_false_spec h g k hk _ rfl
    simp only [Bool.false_eq_true, if_false]
    refine ⟨hs, ?_, ?_⟩
    · intro i h1 h2
      rw [hb i h2, decide_eq_false (by omega), Bool.false_and]
    · intro i h1
      rw [hb i (by omega), decide_eq_true h1, Bool.true_and]
  · obtain ⟨_, hs, hb⟩ := filled_true_spec h g k hk _ rfl
    simp only [if_true]
    refine ⟨hs, ?_, ?_⟩
    · intro i h1 h2
      rw [hb i h2, decide_eq_false (by omega)]
      rfl
    · intro i h1
      rw [hb i (by omega), decide_eq_true h1]
      rfl

/-- The previous theorem at forty bits grown by thirty bits filled with ones. -/
theorem resize_val_grows_with_fill_witness :
    valid true only_bit_35 ∧ 0 < 30 ∧
    ∃ t, resize_val true (some heap_of_ones) (size only_bit_35 + 30) true only_bit_35 = .ok t ∧
      size t = size only_bit_35 + 30 ∧
      (∀ i, size only_bit_35 ≤ i → i < size only_bit_35 + 30 → get_bit true t i = true) ∧
      (∀ i, i < size only_bit_35 → get_bit true t i = get_bit true only_bit_35 i) :=
  ⟨by decide, by decide,
    resize_val_grows_with_fill true heap_of_ones 30 true only_bit_35 (by decide) (by decide)⟩

/-- C8: for every valid state of length `m` and every `n`, `resize(n)` returns when the
allocator succeeds, and after any successful `resize(n)` the length is `n` and every bit
below `min(m, n)` has the value it had before the call. -/
theorem resize_keeps_low_bits (little_endian : Bool) (n : Nat) (s : bitfield)
    (h : valid little_endian s) :
    (∀ g, ∃ t, resize little_endian (some g) n s = .ok t) ∧
    ∀ heap t, resize little_endian heap n s = .ok t →
      size t = n ∧
      ∀ i, i < min (size s) n → get_bit little_endian t i = get_bit little_endian s i :=
  ⟨fun g => ⟨_, resize_some little_endian g n s⟩,
    fun heap t hr => ⟨resize_size little_endian heap n s t hr,
      fun i hi => resize_keeps_bits h heap n t hr i hi⟩⟩

/-- The previous theorem at forty bits shrunk to thirty-six. -/
theorem resize_keeps_low_bits_witness :
    valid true only_bit_35 ∧
    ((∀ g, ∃ t, resize true (some g) 36 only_bit_35 = .ok t) ∧
    ∀ heap t, resize true heap 36 only_bit_35 = .ok t →
      size t = 36 ∧
      ∀ i, i < min (size only_bit_35) 36 → get_bit true t i = get_bit true only_bit_35 i) :=
  ⟨by decide, resize_keeps_low_bits true 36 only_bit_35 (by decide)⟩

/-- C9 as stated fails: `resize(8)` on the empty bitfield, with a heap whose fresh memory
holds ones, yields eight bits the first of which is set. -/
theorem resize_keeps_heap_content :
    valid true ⟨none⟩ ∧ size (⟨none⟩ : bitfield) < 8 ∧
    resize true (some heap_of_ones) 8 ⟨none⟩ = .ok ⟨some ⟨8, [255]⟩⟩ ∧
    get_bit true ⟨some ⟨8, [255]⟩⟩ 0 = true :=
  ⟨by decide, by decide, rfl, by decide⟩

/-- C9, amended: for every valid state of length `m` and every `n > m`, `resize(n)` returns
when the allocator succeeds, and a newly added bit `i` in `[m, n)` is `0` when it lies in a
word the bitfield already had, and is the corresponding bit of the memory the allocator
returned otherwise. -/
theorem resize_new_bits (little_endian : Bool) (g : Nat → Nat) (n : Nat) (s : bitfield)
    (h : valid little_endian s) (hn : size s < n) :
    ∃ t, resize little_endian (some g) n s = .ok t ∧
      ∀ i, size s ≤ i → i < n →
        get_bit little_endian t i =
          if i / 32 < num_words s then false
          else (network_to_host little_endian (g (i / 32) % 2 ^ 32)).testBit (31 - i % 32) := by
  rw [resize_some, if_neg (by omega), if_neg (by omega)]
  refine ⟨_, rfl, ?_⟩
  intro i h1 h2
  rw [get_bit_resized h g n i h2]
  split
  · rename_i hq
    exact trailing_zero h i h1 hq
  · rfl

/-- The previous theorem at forty bits grown to seventy on a heap of ones. -/
theorem resize_new_bits_witness :
    valid true only_bit_35 ∧ size only_bit_35 < 70 ∧
    ∃ t, resize true (some heap_of_ones) 70 only_bit_35 = .ok t ∧
      ∀ i, size only_bit_35 ≤ i → i < 70 →
        get_bit true t i =
          if i / 32 < num_words only_bit_35 then false
          else (network_to_host true (heap_of_ones (i / 32) % 2 ^ 32)).testBit (31 - i % 32) :=
  ⟨by decide, by decide,
    resize_new_bits true heap_of_ones 70 only_bit_35 (by decide) (by decide)⟩

/-- C10: the state invariant holds in the empty state and is preserved by `resize(n)` and by
`resize(n, v)`, for every `n` and both fill values, whatever the allocator does; both calls
return when the allocator succeeds. -/
theorem resize_preserves_valid (little_endian : Bool) (n : Nat) (v : Bool) (s : bitfield)
    (h : valid little_endian s) :
    valid little_endian ⟨none⟩ ∧
    (∀ heap t, resize little_endian heap n s = .ok t → valid little_endian t) ∧
    (∀ heap t, resize_val little_endian heap n v s = .ok t → valid little_endian t) ∧
    (∀ g, (∃ t, resize little_endian (some g) n s = .ok t) ∧
      ∃ t, resize_val little_endian (some g) n v s = .ok t) :=
  ⟨valid_empty little_endian,
    fun heap t hr => resize_valid h heap n t hr,
    fun heap t hr => resize_val_valid h heap n v t hr,
    fun g => ⟨⟨_, resize_some little_endian g n s⟩,
      resize_val_some_ok little_endian g n v s⟩⟩

/-- The previous theorem at forty bits resized to seventy. -/
theorem resize_preserves_valid_witness :
    valid true only_bit_35 ∧
    (valid true ⟨none⟩ ∧
    (∀ heap t, resize true heap 70 only_bit_35 = .ok t → valid true t) ∧
    (∀ heap t, resize_val true heap 70 true only_bit_35 = .ok t → valid true t) ∧
    (∀ g, (∃ t, resize true (some g) 70 only_bit_35 = .ok t) ∧
      ∃ t, resize_val true (some g) 70 true only_bit_35 = .ok t)) :=
  ⟨by decide, resize_preserves_valid true 70 true only_bit_35 (by decide)⟩

/-! ## The claims on failure, round trips and the remaining searches -/

/-- C11: when the allocator fails in a call of `resize(n)` or `resize(n, v)` that reaches it
(`n` is neither the old length nor `0`), the call ends with `bad_alloc` and the object is left
exactly as it was; no other exception leaves either call, and none does when the allocator
succeeds. -/
theorem resize_allocation_failure (little_endian : Bool) (n : Nat) (v : Bool) (s : bitfield) :
    (n ≠ size s → n ≠ 0 →
      resize_effect little_endian none n s = (s, some error.bad_alloc) ∧
      resize_val_effect little_endian none n v s = (s, some error.bad_alloc) ∧
      resize little_endian none n s = .error error.bad_alloc ∧
      resize_val little_endian none n v s = .error error.bad_alloc) ∧
    (∀ heap t e, resize_effect little_endian heap n s = (t, some e) →
      heap = none ∧ e = error.bad_alloc ∧ t = s) ∧
    (∀ heap t e, resize_val_effect little_endian heap n v s = (t, some e) →
      heap = none ∧ e = error.bad_alloc ∧ t = s) := by
  refine ⟨?_, ?_, ?_⟩
  · intro h1 h2
    refine ⟨resize_effect_fail little_endian n s h1 h2,
      resize_val_effect_fail little_endian n v s h1 h2, ?_, ?_⟩
    · rw [resize_effect_agrees, resize_effect_fail little_endian n s h1 h2]
    · rw [resize_val_effect_agrees, resize_val_effect_fail little_endian n v s h1 h2]
  · intro heap t e hr
    obtain ⟨a, b, c, -⟩ := resize_effect_error little_endian heap n s t e hr
    exact ⟨a, b, c⟩
  · intro heap t e hr
    obtain ⟨a, b, c, -⟩ := resize_val_effect_error little_endian heap n v s t e hr
    exact ⟨a, b, c⟩

/-- The previous theorem at forty bits resized to seventy: the failed calls leave the forty
bits as they were. -/
theorem resize_allocation_failure_witness :
    (70 ≠ size only_bit_35 ∧ (70 : Nat) ≠ 0) ∧
    resize_effect true none 70 only_bit_35 = (only_bit_35, some error.bad_alloc) ∧
    resize_val_effect true none 70 true only_bit_35 = (only_bit_35, some error.bad_alloc) ∧
    resize true none 70 only_bit_35 = .error error.bad_alloc ∧
    resize_val true none 70 true only_bit_35 = .error error.bad_alloc :=
  ⟨⟨by decide, by decide⟩,
    (resize_allocation_failure true 70 true only_bit_35).1 (by decide) (by decide)⟩

/-- C12: for every valid state of `n` bits and every `k`, growing to `n + k` bits and
shrinking back to `n` returns the original state, whether the growth is `resize(n + k)` or
`resize(n + k, v)` with either fill value, and whatever the heap holds. -/
theorem grow_then_shrink_round_trip (little_endian : Bool) (g1 g2 : Nat → Nat) (k : Nat)
    (v : Bool) (s : bitfield) (h : valid little_endian s) :
    (∃ t, resize little_endian (some g1) (size s + k) s = .ok t ∧
      resize little_endian (some g2) (size s) t = .ok s) ∧
    (∃ t, resize_val little_endian (some g1) (size s + k) v s = .ok t ∧
      resize little_endian (some g2) (size s) t = .ok s) := by
  constructor
  · obtain ⟨t, ht⟩ : ∃ t, resize little_endian (some g1) (size s + k) s = .ok t :=
      ⟨_, resize_some little_endian g1 _ s⟩
    refine ⟨t, ht, ?_⟩
    apply resize_round_trip h (resize_valid h _ _ t ht)
    · rw [resize_size little_endian _ _ s t ht]
      omega
    · intro i hi
      exact resize_keeps_bits h _ _ t ht i (by rw [Nat.min_eq_left (by omega)]; exact hi)
  · obtain ⟨t, ht⟩ := resize_val_some_ok little_endian g1 (size s + k) v s
    refine ⟨t, ht, ?_⟩
    apply resize_round_trip h (resize_val_valid h _ _ v t ht)
    · rw [resize_val_size h _ _ v t ht]
      omega
    · intro i hi
      exact resize_val_grow_keeps_bits h g1 k v t ht i hi

/-- The previous theorem at forty bits, grown by thirty bits on a heap of ones. -/
theorem grow_then_shrink_round_trip_witness :
    valid true only_bit_35 ∧
    ((∃ t, resize true (some heap_of_ones) (size only_bit_35 + 30) only_bit_35 = .ok t ∧
      resize true (some heap_of_ones) (size only_bit_35) t = .ok only_bit_35) ∧
    (∃ t, resize_val true (some heap_of_ones) (size only_bit_35 + 30) true only_bit_35 = .ok t ∧
      resize true (some heap_of_ones) (size only_bit_35) t = .ok only_bit_35)) :=
  ⟨by decide,
    grow_then_shrink_round_trip true heap_of_ones heap_of_ones 30 true only_bit_35 (by decide)⟩

/-- C13, evaluated at the failing input: on the empty bitfield `find_last_clear()` reads
`m_buf[words - 1]`, that is `m_buf[-1]` through the null pointer, on either path and whatever
the shift by 32 of the mask yields; `find_first_set()` returns `-1` there. -/
theorem find_last_clear_on_empty (mmx_support little_endian : Bool) (wide : Nat) :
    valid little_endian ⟨none⟩ ∧ size (⟨none⟩ : bitfield) = 0 ∧
    read ⟨none⟩ ((num_words ⟨none⟩ : Int) - 1) = none ∧
    find_last_clear mmx_support little_endian wide ⟨none⟩ = none ∧
    find_first_set mmx_support little_endian ⟨none⟩ = some (-1) :=
  ⟨valid_empty little_endian, rfl, rfl, rfl, rfl⟩

/-- C14: `resize` is idempotent: after a successful `resize(n)` a second `resize(n)` returns
the same state, likewise for `resize(n, v)`, whatever the allocator does in the second call;
both first calls return when the allocator succeeds. -/
theorem resize_idempotent (little_endian : Bool) (heap1 heap2 : Option (Nat → Nat)) (n : Nat)
    (v : Bool) (s : bitfield) (h : valid little_endian s) :
    (∀ t, resize little_endian heap1 n s = .ok t → resize little_endian heap2 n t = .ok t) ∧
    (∀ t, resize_val little_endian heap1 n v s = .ok t →
      resize_val little_endian heap2 n v t = .ok t) ∧
    (∀ g, (∃ t, resize little_endian (some g) n s = .ok t) ∧
      ∃ t, resize_val little_endian (some g) n v s = .ok t) := by
  refine ⟨?_, ?_, ?_⟩
  · intro t ht
    have := resize_same little_endian heap2 t
    rwa [resize_size little_endian heap1 n s t ht] at this
  · intro t ht
    have := resize_val_same little_endian heap2 v t
    rwa [resize_val_size h heap1 n v t ht] at this
  · intro g
    exact ⟨⟨_, resize_some little_endian g n s⟩, resize_val_some_ok little_endian g n v s⟩

/-- The previous theorem at forty bits resized to seventy, the second call with a failing
allocator. -/
theorem resize_idempotent_witness :
    valid true only_bit_35 ∧
    ((∀ t, resize true (some heap_of_ones) 70 only_bit_35 = .ok t →
      resize true none 70 t = .ok t) ∧
    (∀ t, resize_val true (some heap_of_ones) 70 true only_bit_35 = .ok t →
      resize_val true none 70 true t = .ok t) ∧
    (∀ g, (∃ t, resize true (some g) 70 only_bit_35 = .ok t) ∧
      ∃ t, resize_val true (some g) 70 true only_bit_35 = .ok t)) :=
  ⟨by decide, resize_idempotent true (some heap_of_ones) none 70 true only_bit_35 (by decide)⟩

/-- C15: for every state of length `m` (valid or not), every `n ≤ m` and both fill values,
`resize(n, v)` is `resize(n)`: the two calls have the same result, so the fill value has no
effect. -/
theorem resize_val_shrink_is_resize (little_endian : Bool) (heap : Option (Nat → Nat))
    (n : Nat) (v : Bool) (s : bitfield) (hn : n ≤ size s) :
    resize_val little_endian heap n v s = resize little_endian heap n s ∧
    resize_val little_endian heap n true s = resize_val little_endian heap n false s :=
  ⟨resize_val_shrink little_endian heap n v s hn,
    by rw [resize_val_shrink little_endian heap n true s hn,
      resize_val_shrink little_endian heap n false s hn]⟩

/-- The previous theorem at forty bits shrunk to thirty-six. -/
theorem resize_val_shrink_is_resize_witness :
    36 ≤ size only_bit_35 ∧
    (resize_val true (some heap_of_ones) 36 true only_bit_35 =
      resize true (some heap_of_ones) 36 only_bit_35 ∧
    resize_val true (some heap_of_ones) 36 true only_bit_35 =
      resize_val true (some heap_of_ones) 36 false only_bit_35) :=
  ⟨by decide,
    resize_val_shrink_is_resize true (some heap_of_ones) 36 true only_bit_35 (by decide)⟩

/-- C16: for every valid bitfield state and either capability flag, `0 <= count() <= length`,
so neither assertion at the end of `count()` fails; on a block whose trailing bits are not
zero (one word of ones under a length of one bit) the count is 32. -/
theorem count_within_length (mmx_support little_endian : Bool) (s : bitfield)
    (h : valid little_endian s) :
    ((0 : Int) ≤ (count mmx_support s : Int) ∧ count mmx_support s ≤ size s) ∧
    (size ones_under_one_bit = 1 ∧ count mmx_support ones_under_one_bit = 32) :=
  ⟨⟨Int.ofNat_nonneg _, count_le_size mmx_support little_endian s h⟩,
    ⟨rfl, by cases mmx_support <;> decide⟩⟩

/-- The previous theorem on the portable path at forty bits with only bit 35 set. -/
theorem count_within_length_witness :
    valid true only_bit_35 ∧
    (((0 : Int) ≤ (count false only_bit_35 : Int) ∧
        count false only_bit_35 ≤ size only_bit_35) ∧
    (size ones_under_one_bit = 1 ∧ count false ones_under_one_bit = 32)) :=
  ⟨by decide, count_within_length false true only_bit_35 (by decide)⟩

/-- C17, evaluated at the failing input: thirty-two bits, all set except bit 5. The mask is
`0xffffffff << 32`. Where that shift yields `0` the final word is left as it is and the
hardware path returns the index of its last set bit, 31; where the shift leaves its operand
unchanged the result is 5. -/
theorem find_last_clear_hardware_at_32 :
    valid true all_but_bit_5 ∧ size all_but_bit_5 = 32 ∧
    get_bit true all_but_bit_5 5 = false ∧ get_bit true all_but_bit_5 31 = true ∧
    shl32 0 0xffffffff (32 - (size all_but_bit_5 &&& 31)) = 0 ∧
    find_last_clear true true 0 all_but_bit_5 = some 31 ∧
    find_last_clear true true 0xffffffff all_but_bit_5 = some 5 := by
  decide

/-- C18: on every 32-bit word the five-stage bit-parallel computation of the portable path of
`count()` yields the population count, the value of the intrinsic of the hardware path; so on
every block of 32-bit words `count()` is the same for both values of the capability flag. -/
theorem swar_is_popcount :
    (∀ v, v < 2 ^ 32 → swar v = builtin_popcount v) ∧
    (∀ s, (∀ w ∈ words s, w < 2 ^ 32) → count true s = count false s) :=
  ⟨swar_eq, count_flag_irrelevant⟩

/-- The previous theorem at the word `0xdeadbeef` and at forty bits with only bit 35 set. -/
theorem swar_is_popcount_witness :
    (0xdeadbeef < 2 ^ 32 ∧ swar 0xdeadbeef = builtin_popcount 0xdeadbeef) ∧
    ((∀ w ∈ words only_bit_35, w < 2 ^ 32) ∧
      count true only_bit_35 = count false only_bit_35) :=
  ⟨⟨by decide, swar_is_popcount.1 0xdeadbeef (by decide)⟩,
    ⟨by decide, swar_is_popcount.2 only_bit_35 (by decide)⟩⟩

/-- C19: for every valid bitfield state and either value of the capability flag (in
`find_first_set()` and in `count()`), `find_first_set()` returns `-1` if and only if
`count()` is `0`, and returns a non-negative result exactly when some word is non-zero. -/
theorem find_first_set_negative_iff_count_zero (mmx_support mmx_count little_endian : Bool)
    (s : bitfield) (h : valid little_endian s) :
    (find_first_set mmx_support little_endian s = some (-1) ↔ count mmx_count s = 0) ∧
    ((∃ r : Int, find_first_set mmx_support little_endian s = some r ∧ 0 ≤ r) ↔
      ∃ q, q < num_words s ∧ word s q ≠ 0) := by
  rw [count_eq_zero_iff mmx_count little_endian s h, ← all_words_zero_iff little_endian s h]
  rcases find_first_set_cases mmx_support little_endian s h with
    ⟨hr, hz⟩ | ⟨r, hr, hr0, q, hq, hw⟩
  · refine ⟨⟨fun _ => hz, fun _ => hr⟩, ?_, ?_⟩
    · rintro ⟨r, hr2, hr0⟩
      rw [hr] at hr2
      cases hr2
      exact absurd hr0 (by decide)
    · rintro ⟨q, hq, hw⟩
      exact absurd (hz q hq) hw
  · refine ⟨⟨?_, ?_⟩, fun _ => ⟨q, hq, hw⟩, fun _ => ⟨r, hr, hr0⟩⟩
    · intro hm
      rw [hr] at hm
      cases hm
      exact absurd hr0 (by decide)
    · intro hz
      exact absurd (hz q hq) hw

/-- The previous theorem on the portable path at forty bits with only bit 35 set. -/
theorem find_first_set_negative_iff_count_zero_witness :
    valid true only_bit_35 ∧
    ((find_first_set false true only_bit_35 = some (-1) ↔ count true only_bit_35 = 0) ∧
    ((∃ r : Int, find_first_set false true only_bit_35 = some r ∧ 0 ≤ r) ↔
      ∃ q, q < num_words only_bit_35 ∧ word only_bit_35 q ≠ 0)) :=
  ⟨by decide, find_first_set_negative_iff_count_zero false true true only_bit_35 (by decide)⟩

/-- C20: on the hardware path, for every valid state of positive length, every bit-scan
intrinsic gets a non-zero argument and is defined there: count-leading-zeros at each non-zero
word in `find_first_set()`, count-trailing-zeros at the final word when `last != 0` and at
each word other than `0xffffffff` in `find_last_clear()`; hence both calls return a value. -/
theorem bit_scan_arguments_nonzero (little_endian : Bool) (wide : Nat) (s : bitfield)
    (h : valid little_endian s) (hpos : 0 < size s) :
    (∀ q, word s q ≠ 0 →
      network_to_host little_endian (word s q) ≠ 0 ∧
      (builtin_clz (network_to_host little_endian (word s q))).isSome = true) ∧
    (network_to_host little_endian (word s (num_words s - 1)) ^^^
        shl32 wide 0xffffffff (32 - (size s &&& 31)) ≠ 0 →
      (builtin_ctz (network_to_host little_endian (word s (num_words s - 1)) ^^^
        shl32 wide 0xffffffff (32 - (size s &&& 31)))).isSome = true) ∧
    (∀ q, word s q ≠ 0xffffffff →
      network_to_host little_endian (word s q) ^^^ 0xffffffff ≠ 0 ∧
      (builtin_ctz (network_to_host little_endian (word s q) ^^^ 0xffffffff)).isSome = true) ∧
    (∃ r, find_first_set true little_endian s = some r) ∧
    (∃ r, find_last_clear true little_endian wide s = some r) := by
  refine ⟨?_, ?_, ?_, ?_, find_last_clear_hw_defined little_endian wide s h hpos⟩
  · intro q hw
    have hn : network_to_host little_endian (word s q) ≠ 0 := fun e =>
      hw ((network_to_host_eq_zero little_endian _ (words_lt h q)).mp e)
    exact ⟨hn, builtin_clz_defined _ (network_to_host_lt little_endian _ (words_lt h q)) hn⟩
  · intro hl
    exact builtin_ctz_defined _
      (Nat.xor_lt_two_pow (network_to_host_lt little_endian _ (words_lt h _)) (shl32_lt _ _ _))
      hl
  · intro q hw
    have hlt := network_to_host_lt little_endian _ (words_lt h q)
    have hn : network_to_host little_endian (word s q) ^^^ 0xffffffff ≠ 0 :=
      xor_ones_ne_zero _ hlt
        (fun e => hw ((network_to_host_eq_ones little_endian _ (words_lt h q)).mp e))
    exact ⟨hn, builtin_ctz_defined _ (xor_ones_lt _ hlt) hn⟩
  · rcases find_first_set_hw_spec little_endian s h with ⟨hr, -⟩ | ⟨p, hr, -⟩
    · exact ⟨_, hr⟩
    · exact ⟨_, hr⟩

/-- The previous theorem at forty bits, all set except bit 35, with a shift by 32 that
yields zero. -/
theorem bit_scan_arguments_nonzero_witness :
    (valid true all_but_bit_35 ∧ 0 < size all_but_bit_35) ∧
    (∃ r, find_first_set true true all_but_bit_35 = some r) ∧
    (∃ r, find_last_clear true true 0 all_but_bit_35 = some r) :=
  ⟨⟨by decide, by decide⟩,
    (bit_scan_arguments_nonzero true 0 all_but_bit_35 (by decide) (by decide)).2.2.2⟩

end libtorrent
